import Mathlib

/-!
Verification of the maze_maker repository core (`src/maze/mod.rs`).

The code is shallowly embedded: the mutable `Vec<Vec<Cell>>` grid becomes a
total function `ℕ → ℕ → Cell` updated pointwise (every access the Rust code
performs is in bounds, so the totalisation is invisible), the `rand` stream
becomes an explicit sequence `seq : ℕ → ℕ` consumed at an explicit cursor
(`gen_range(0..n)` at cursor `i` is `seq i % n`), the `HashSet` of visited
cells becomes a `Finset`, and the two unbounded loops (the loop-erased random
walk and the BFS of `can_solve`) take an explicit fuel argument; a
"terminating run" of the Rust code is a run for which some fuel suffices.
-/

namespace MazeMaker

/-- Cell marker, from `enum Cell { Wall, Path }`. -/
inductive Cell
  | Wall
  | Path
deriving DecidableEq

abbrev Pos := ℕ × ℕ

/-- Storage grid: total function model of `Vec<Vec<Cell>>`. -/
abbrev Grid := ℕ → ℕ → Cell

/-- Pointwise update, modelling `self.grid[r][c] = v`. -/
def setG (g : Grid) (r c : ℕ) (v : Cell) : Grid :=
  fun r2 c2 => if r2 = r ∧ c2 = c then v else g r2 c2

/-- The maze: grid of dimensions `(2*rows+1) × (2*cols+1)`, from `struct CylinderMaze`. -/
structure CylinderMaze where
  grid : Grid
  rows : ℕ
  cols : ℕ

/-- `CylinderMaze::new`: everything a wall. -/
def CylinderMaze.new (rows cols : ℕ) : CylinderMaze :=
  ⟨fun _ _ => Cell.Wall, rows, cols⟩

/-- `cell_to_grid`: logical cell to storage coordinates (the `&self` argument is unused). -/
def cell_to_grid (row col : ℕ) : Pos := (2 * row + 1, 2 * col + 1)

/-- Neighbor list of a logical cell, parametrised by the maze dimensions;
`get_neighbors` below instantiates it with the maze fields. -/
def nbr_list (rows cols row col : ℕ) : List Pos :=
  (if 0 < row then [(row - 1, col)] else []) ++
  (if row < rows - 1 then [(row + 1, col)] else []) ++
  [(row, if col = 0 then cols - 1 else col - 1), (row, (col + 1) % cols)]

/-- `CylinderMaze::get_neighbors`. -/
def get_neighbors (m : CylinderMaze) (row col : ℕ) : List Pos :=
  nbr_list m.rows m.cols row col

/-- `CylinderMaze::carve_passage`.  The Rust code reads
`grid_cols = self.grid[0].len()`, which by construction is `2*cols+1`. -/
def carve_passage (m : CylinderMaze) (f t : Pos) : CylinderMaze :=
  let fr := 2 * f.1 + 1
  let fc := 2 * f.2 + 1
  let tr := 2 * t.1 + 1
  let tc := 2 * t.2 + 1
  let g1 := setG (setG m.grid fr fc Cell.Path) tr tc Cell.Path
  let g2 :=
    if f.1 = t.1 then
      if (f.2 = 0 ∧ t.2 = m.cols - 1) ∨ (f.2 = m.cols - 1 ∧ t.2 = 0) then
        setG (setG g1 fr 0 Cell.Path) fr (2 * m.cols + 1 - 1) Cell.Path
      else
        setG g1 fr ((fc + tc) / 2) Cell.Path
    else
      setG g1 ((fr + tr) / 2) fc Cell.Path
  ⟨g2, m.rows, m.cols⟩

/-- `path.iter().position(|&p| p == x)`: index of the first occurrence. -/
def pos_of (x : Pos) : List Pos → Option ℕ
  | [] => none
  | y :: l => if y = x then some 0 else (pos_of x l).map (· + 1)

/-- The loop-erased random walk (`while !in_maze.contains(&current)` loop of
`generate_wilson`), with fuel.  Returns the final path and the advanced
random-stream cursor. -/
def loop_walk (m : CylinderMaze) (seq : ℕ → ℕ) (inMaze : Finset Pos) :
    ℕ → List Pos → Pos → ℕ → Option (List Pos × ℕ)
  | 0, _, _, _ => none
  | fuel + 1, path, current, i =>
    if current ∈ inMaze then some (path, i)
    else
      let ns := nbr_list m.rows m.cols current.1 current.2
      let next := ns.getD (seq i % ns.length) (0, 0)
      match pos_of next path with
      | some p => loop_walk m seq inMaze fuel (path.take (p + 1)) next (i + 1)
      | none => loop_walk m seq inMaze fuel (path ++ [next]) next (i + 1)

/-- The `for i in 0..path.len()` loop of `generate_wilson`: insert every path
cell into the visited set and carve between consecutive cells. -/
def add_path (m : CylinderMaze) (inMaze : Finset Pos) :
    Option Pos → List Pos → CylinderMaze × Finset Pos
  | _, [] => (m, inMaze)
  | prev?, cell :: rest =>
    let inM2 := insert cell inMaze
    let m2 := match prev? with
      | none => m
      | some prev => carve_passage m prev cell
    add_path m2 inM2 (some cell) rest

/-- One iteration of the `for row / for col` loop of `generate_wilson`:
skip visited cells, otherwise walk and add the loop-erased path. -/
def gen_cell_step (seq : ℕ → ℕ) (fuel : ℕ)
    (st : CylinderMaze × Finset Pos × ℕ) (cell : Pos) :
    Option (CylinderMaze × Finset Pos × ℕ) :=
  if cell ∈ st.2.1 then some st
  else
    match loop_walk st.1 seq st.2.1 fuel [cell] cell st.2.2 with
    | none => none
    | some (path, i2) =>
      let r := add_path st.1 st.2.1 none path
      some (r.1, r.2, i2)

/-- Row-major enumeration of all logical cells, as in the nested `for` loops. -/
def cell_list (rows cols : ℕ) : List Pos :=
  (List.range rows).flatMap fun r => (List.range cols).map fun c => (r, c)

/-- Everything of `generate_wilson` up to (and including) the generation loop:
seed a random top-row cell, mark it, then process every cell.  Returns the
final maze, the visited set and the random-stream cursor. -/
def wilson_loop (rows cols : ℕ) (seq : ℕ → ℕ) (fuel : ℕ) :
    Option (CylinderMaze × Finset Pos × ℕ) :=
  let m0 := CylinderMaze.new rows cols
  let start_col := seq 0 % cols
  let inM0 : Finset Pos := {(0, start_col)}
  let m1 : CylinderMaze :=
    ⟨setG m0.grid (2 * 0 + 1) (2 * start_col + 1) Cell.Path, rows, cols⟩
  List.foldlM (gen_cell_step seq fuel) (m1, inM0, 1) (cell_list rows cols)

/-- `CylinderMaze::generate_wilson`.  The returned start is the seed cell
`(0, seq 0 % cols)` chosen before the loop; the end column is drawn after it. -/
def generate_wilson (rows cols : ℕ) (seq : ℕ → ℕ) (fuel : ℕ) :
    Option (CylinderMaze × Pos × Pos) :=
  match wilson_loop rows cols seq fuel with
  | none => none
  | some (m, _, i) =>
    some (m, (0, seq 0 % cols), (rows - 1, seq i % cols))

/-- Storage-space neighbor list used by `can_solve` (wraps modulo the storage
width, rows bounded by the storage height). -/
def nbr_stor (gr gc r c : ℕ) : List Pos :=
  (if 0 < r then [(r - 1, c)] else []) ++
  (if r + 1 < gr then [(r + 1, c)] else []) ++
  [(r, if c = 0 then gc - 1 else c - 1), (r, (c + 1) % gc)]

/-- One neighbor inspection of the BFS: visit-and-enqueue fresh `Path` positions. -/
def bfs_push (g : Grid) (acc : Finset Pos × List Pos) (q : Pos) : Finset Pos × List Pos :=
  if q ∉ acc.1 ∧ g q.1 q.2 = Cell.Path then (insert q acc.1, acc.2 ++ [q]) else acc

/-- The `while let Some((r, c)) = queue.pop_front()` loop of `can_solve`,
with fuel (one unit per pop; `bfs_fuel_enough` below shows the fuel used by
`can_solve` never runs out, so the embedding agrees with the unbounded loop). -/
def bfs (g : Grid) (gr gc : ℕ) (ep : Pos) :
    ℕ → List Pos → Finset Pos → Option Bool
  | _, [], _ => some false
  | 0, _ :: _, _ => none
  | fuel + 1, p :: rest, visited =>
    if p = ep then some true
    else
      let st := (nbr_stor gr gc p.1 p.2).foldl (bfs_push g) (visited, rest)
      bfs g gr gc ep fuel st.2 st.1

/-- `CylinderMaze::can_solve`. -/
def can_solve (m : CylinderMaze) (s e : Pos) : Bool :=
  let sp := cell_to_grid s.1 s.2
  let ep := cell_to_grid e.1 e.2
  let gr := 2 * m.rows + 1
  let gc := 2 * m.cols + 1
  (bfs m.grid gr gc ep (gr * gc + 1) [sp] {sp}).getD false

/-! ### Basic grid-update lemmas -/

theorem setG_apply (g : Grid) (r c r2 c2 : ℕ) (v : Cell) :
    setG g r c v r2 c2 = if r2 = r ∧ c2 = c then v else g r2 c2 := rfl

/-- The exact list of storage positions written by `carve_passage`,
read off the branches of the source. -/
def carve_writes (cols : ℕ) (f t : Pos) : List Pos :=
  [(2 * f.1 + 1, 2 * f.2 + 1), (2 * t.1 + 1, 2 * t.2 + 1)] ++
  (if f.1 = t.1 then
    if (f.2 = 0 ∧ t.2 = cols - 1) ∨ (f.2 = cols - 1 ∧ t.2 = 0) then
      [(2 * f.1 + 1, 0), (2 * f.1 + 1, 2 * cols + 1 - 1)]
    else
      [(2 * f.1 + 1, ((2 * f.2 + 1) + (2 * t.2 + 1)) / 2)]
  else
    [((2 * f.1 + 1 + (2 * t.1 + 1)) / 2, 2 * f.2 + 1)])

theorem carve_rows (m : CylinderMaze) (f t : Pos) : (carve_passage m f t).rows = m.rows := rfl

theorem carve_cols (m : CylinderMaze) (f t : Pos) : (carve_passage m f t).cols = m.cols := rfl

theorem carve_grid_apply (m : CylinderMaze) (f t : Pos) (r c : ℕ) :
    (carve_passage m f t).grid r c =
      if (r, c) ∈ carve_writes m.cols f t then Cell.Path else m.grid r c := by
  rcases m with ⟨g, rows, cols⟩
  by_cases h1 : f.1 = t.1 <;>
    by_cases h2 : (f.2 = 0 ∧ t.2 = cols - 1) ∨ (f.2 = cols - 1 ∧ t.2 = 0) <;>
    simp only [carve_passage, carve_writes, h1, h2, if_true, if_false, setG,
      List.mem_append, List.mem_cons, List.mem_singleton, List.not_mem_nil,
      Prod.mk.injEq, or_false, if_pos, if_neg] <;>
    split_ifs <;> simp_all <;> tauto

/-- `carve_passage` only ever writes `Path`: monotonicity. -/
theorem carve_mono (m : CylinderMaze) (f t : Pos) (r c : ℕ)
    (h : m.grid r c = Cell.Path) : (carve_passage m f t).grid r c = Cell.Path := by
  rw [carve_grid_apply]
  split_ifs <;> simp [h]

/-- Positions outside the write list are untouched. -/
theorem carve_untouched (m : CylinderMaze) (f t : Pos) (r c : ℕ)
    (h : (r, c) ∉ carve_writes m.cols f t) :
    (carve_passage m f t).grid r c = m.grid r c := by
  rw [carve_grid_apply, if_neg h]

theorem carve_writes_mem (m : CylinderMaze) (f t : Pos) (r c : ℕ)
    (h : (r, c) ∈ carve_writes m.cols f t) :
    (carve_passage m f t).grid r c = Cell.Path := by
  rw [carve_grid_apply, if_pos h]

/-! ### Logical adjacency -/

/-- A logical cell coordinate is in range. -/
def validCell (rows cols : ℕ) (a : Pos) : Prop := a.1 < rows ∧ a.2 < cols

instance (rows cols : ℕ) (a : Pos) : Decidable (validCell rows cols a) := by
  unfold validCell; infer_instance

/-- Directed adjacency as produced by the source's neighbor computation. -/
def AdjD (rows cols : ℕ) (a b : Pos) : Prop := b ∈ nbr_list rows cols a.1 a.2

theorem mem_nbr_list {rows cols row col : ℕ} {b : Pos} :
    b ∈ nbr_list rows cols row col ↔
      (0 < row ∧ b = (row - 1, col)) ∨
      (row < rows - 1 ∧ b = (row + 1, col)) ∨
      b = (row, if col = 0 then cols - 1 else col - 1) ∨
      b = (row, (col + 1) % cols) := by
  by_cases hu : 0 < row <;> by_cases hd : row < rows - 1 <;>
    simp [nbr_list, hu, hd]

/-- Neighbors of an in-range cell are in range. -/
theorem nbr_valid {rows cols : ℕ} {a b : Pos}
    (ha : validCell rows cols a) (h : AdjD rows cols a b) :
    validCell rows cols b := by
  obtain ⟨h1, h2⟩ := ha
  rcases mem_nbr_list.1 h with ⟨h3, rfl⟩ | ⟨h3, rfl⟩ | rfl | rfl <;>
    constructor <;> simp only [validCell] <;> first
      | omega
      | (split_ifs <;> omega)
      | (exact Nat.mod_lt _ (by omega))

/-- The four geometric shapes a directed adjacency can take, aligned with the
wrap test of `carve_passage`.  `a ≠ b` rules out the self-neighbor produced by
the column arithmetic when `cols = 1`. -/
theorem adjD_cases {rows cols : ℕ} {a b : Pos}
    (ha : validCell rows cols a) (hne : a ≠ b) (h : AdjD rows cols a b) :
    (b.1 + 1 = a.1 ∧ b.2 = a.2) ∨
    (a.1 + 1 = b.1 ∧ b.1 < rows ∧ b.2 = a.2) ∨
    (a.1 = b.1 ∧ ¬((a.2 = 0 ∧ b.2 = cols - 1) ∨ (a.2 = cols - 1 ∧ b.2 = 0)) ∧
      (a.2 + 1 = b.2 ∨ b.2 + 1 = a.2) ∧ a.2 < cols ∧ b.2 < cols) ∨
    (a.1 = b.1 ∧ 2 ≤ cols ∧
      ((a.2 = 0 ∧ b.2 = cols - 1) ∨ (a.2 = cols - 1 ∧ b.2 = 0))) := by
  obtain ⟨x, y⟩ := a
  obtain ⟨h1, h2⟩ := ha
  dsimp only at h1 h2
  rcases mem_nbr_list.1 h with ⟨h3, rfl⟩ | ⟨h3, rfl⟩ | rfl | rfl <;>
    dsimp only at hne ⊢
  · exact Or.inl ⟨by omega, rfl⟩
  · exact Or.inr (Or.inl ⟨rfl, by omega, rfl⟩)
  · by_cases hc : y = 0
    · simp only [hc, reduceIte] at hne ⊢
      have h4 : ¬ (0 : ℕ) = cols - 1 := fun hx => hne (by rw [← hx])
      exact Or.inr (Or.inr (Or.inr ⟨by trivial, by omega, Or.inl ⟨by trivial, by trivial⟩⟩))
    · simp only [if_neg hc] at hne ⊢
      by_cases hw : y = cols - 1 ∧ y - 1 = 0
      · exact Or.inr (Or.inr (Or.inr ⟨by trivial, by omega, Or.inr ⟨hw.1, hw.2⟩⟩))
      · exact Or.inr (Or.inr (Or.inl ⟨by trivial, by omega, Or.inr (by omega), h2, by omega⟩))
  · by_cases hc : y + 1 = cols
    · have hz : (y + 1) % cols = 0 := by rw [hc]; exact Nat.mod_self _
      simp only [hz] at hne ⊢
      have h4 : ¬ y = 0 := fun hx => hne (by rw [hx])
      exact Or.inr (Or.inr (Or.inr ⟨by trivial, by omega, Or.inr ⟨by omega, by trivial⟩⟩))
    · have hm : (y + 1) % cols = y + 1 := Nat.mod_eq_of_lt (by omega)
      simp only [hm] at hne ⊢
      by_cases hw : y = 0 ∧ y + 1 = cols - 1
      · exact Or.inr (Or.inr (Or.inr ⟨by trivial, by omega, Or.inl ⟨hw.1, hw.2⟩⟩))
      · exact Or.inr (Or.inr (Or.inl ⟨by trivial, by omega, Or.inl (by trivial), h2, by omega⟩))

/-! ### The wall position carved between two adjacent cells -/

/-- The merged wall position written by `carve_passage` between two cells: the
single wall in the vertical / non-wrapping horizontal cases, and the column-0
half of the seam pair in the wrapping case (the column-`2*cols` half is its
mirror; `carve_seam` below shows the two are always written together). -/
def wallPos (cols : ℕ) (f t : Pos) : Pos :=
  if f.1 = t.1 then
    if (f.2 = 0 ∧ t.2 = cols - 1) ∨ (f.2 = cols - 1 ∧ t.2 = 0) then
      (2 * f.1 + 1, 0)
    else
      (2 * f.1 + 1, ((2 * f.2 + 1) + (2 * t.2 + 1)) / 2)
  else
    ((2 * f.1 + 1 + (2 * t.1 + 1)) / 2, 2 * f.2 + 1)

theorem wallPos_of_ne (cols : ℕ) {f t : Pos} (h : ¬ f.1 = t.1) :
    wallPos cols f t = (f.1 + t.1 + 1, 2 * f.2 + 1) := by
  unfold wallPos
  rw [if_neg h]
  have h3 : (2 * f.1 + 1 + (2 * t.1 + 1)) / 2 = f.1 + t.1 + 1 := by omega
  rw [h3]

theorem wallPos_of_wrap (cols : ℕ) {f t : Pos} (h1 : f.1 = t.1)
    (h2 : (f.2 = 0 ∧ t.2 = cols - 1) ∨ (f.2 = cols - 1 ∧ t.2 = 0)) :
    wallPos cols f t = (2 * f.1 + 1, 0) := by
  unfold wallPos
  rw [if_pos h1, if_pos h2]

theorem wallPos_of_horiz (cols : ℕ) {f t : Pos} (h1 : f.1 = t.1)
    (h2 : ¬ ((f.2 = 0 ∧ t.2 = cols - 1) ∨ (f.2 = cols - 1 ∧ t.2 = 0))) :
    wallPos cols f t = (2 * f.1 + 1, f.2 + t.2 + 1) := by
  unfold wallPos
  rw [if_pos h1, if_neg h2]
  have h3 : (2 * f.2 + 1 + (2 * t.2 + 1)) / 2 = f.2 + t.2 + 1 := by omega
  rw [h3]

/-- The carved wall of a genuine adjacency lies in the merged wall range
(row below `2*rows+1`, column strictly below `2*cols`) and is not a cell-own
(odd/odd) position. -/
theorem wallPos_range {rows cols : ℕ} {a b : Pos}
    (ha : validCell rows cols a) (hne : a ≠ b) (hab : AdjD rows cols a b) :
    (wallPos cols a b).1 < 2 * rows + 1 ∧ (wallPos cols a b).2 < 2 * cols ∧
      ¬ ((wallPos cols a b).1 % 2 = 1 ∧ (wallPos cols a b).2 % 2 = 1) := by
  have ha2 := ha
  obtain ⟨ha1, hc1⟩ := ha2
  rcases adjD_cases ha hne hab with h | h | h | h
  · rw [wallPos_of_ne cols (by omega)]
    refine ⟨by omega, by omega, by omega⟩
  · rw [wallPos_of_ne cols (by omega)]
    refine ⟨by omega, by omega, by omega⟩
  · rw [wallPos_of_horiz cols h.1 h.2.1]
    obtain ⟨-, -, hor, hb2, hc2⟩ := h
    refine ⟨by omega, by omega, by omega⟩
  · rw [wallPos_of_wrap cols h.1 h.2.2]
    obtain ⟨-, hcols, -⟩ := h
    refine ⟨by omega, by omega, by omega⟩

/-- Distinct adjacent pairs carve distinct merged walls; the wall determines
its unordered pair of endpoints. -/
theorem wallPos_inj {rows cols : ℕ} {a b x y : Pos}
    (ha : validCell rows cols a) (hne1 : a ≠ b) (hab : AdjD rows cols a b)
    (hx : validCell rows cols x) (hne2 : x ≠ y) (hxy : AdjD rows cols x y)
    (heq : wallPos cols a b = wallPos cols x y) :
    (x = a ∧ y = b) ∨ (x = b ∧ y = a) := by
  have ha2 := ha
  have hx2 := hx
  obtain ⟨ha1, hc1⟩ := ha2
  obtain ⟨hx1, hc2⟩ := hx2
  rcases adjD_cases ha hne1 hab with h | h | h | h <;>
    rcases adjD_cases hx hne2 hxy with g | g | g | g <;>
  [skip; skip; skip; skip; skip; skip; skip; skip; skip; skip; skip; skip;
   skip; skip; skip; skip] <;>
  first
    | rw [wallPos_of_ne cols (by omega), wallPos_of_ne cols (by omega)] at heq
    | rw [wallPos_of_ne cols (by omega), wallPos_of_wrap cols g.1 g.2.2] at heq
    | rw [wallPos_of_ne cols (by omega), wallPos_of_horiz cols g.1 g.2.1] at heq
    | rw [wallPos_of_wrap cols h.1 h.2.2, wallPos_of_ne cols (by omega)] at heq
    | rw [wallPos_of_wrap cols h.1 h.2.2, wallPos_of_wrap cols g.1 g.2.2] at heq
    | rw [wallPos_of_wrap cols h.1 h.2.2, wallPos_of_horiz cols g.1 g.2.1] at heq
    | rw [wallPos_of_horiz cols h.1 h.2.1, wallPos_of_ne cols (by omega)] at heq
    | rw [wallPos_of_horiz cols h.1 h.2.1, wallPos_of_wrap cols g.1 g.2.2] at heq
    | rw [wallPos_of_horiz cols h.1 h.2.1, wallPos_of_horiz cols g.1 g.2.1] at heq
  all_goals simp only [Prod.mk.injEq] at heq
  all_goals (try rcases h.2.2 with hh | hh)
  all_goals (try rcases h.2.2.1 with hh2 | hh2)
  all_goals (try rcases g.2.2 with gg | gg)
  all_goals (try rcases g.2.2.1 with gg2 | gg2)
  all_goals
    first
      | (exfalso; omega)
      | exact Or.inl ⟨Prod.ext_iff.2 ⟨by omega, by omega⟩,
          Prod.ext_iff.2 ⟨by omega, by omega⟩⟩
      | exact Or.inr ⟨Prod.ext_iff.2 ⟨by omega, by omega⟩,
          Prod.ext_iff.2 ⟨by omega, by omega⟩⟩

/-! ### Merged wall set, seam pairing, endpoint markers -/

/-- The set of `Path`-marked wall positions with the seam counted once:
columns range over `0 .. 2*cols - 1`, so the duplicate seam half at column
`2*cols` is excluded (it always mirrors column `0`, see `carve_seam`). -/
def mergedWallSet (g : Grid) (rows cols : ℕ) : Finset Pos :=
  ((Finset.range (2 * rows + 1)) ×ˢ (Finset.range (2 * cols))).filter
    (fun p => ¬ (p.1 % 2 = 1 ∧ p.2 % 2 = 1) ∧ g p.1 p.2 = Cell.Path)

theorem mem_mergedWallSet {g : Grid} {rows cols : ℕ} {p : Pos} :
    p ∈ mergedWallSet g rows cols ↔
      p.1 < 2 * rows + 1 ∧ p.2 < 2 * cols ∧
        ¬ (p.1 % 2 = 1 ∧ p.2 % 2 = 1) ∧ g p.1 p.2 = Cell.Path := by
  unfold mergedWallSet
  simp [Finset.mem_filter, Finset.mem_product, and_assoc]

theorem wallPos_mem_writes (cols : ℕ) (a b : Pos) :
    wallPos cols a b ∈ carve_writes cols a b := by
  unfold wallPos carve_writes
  split_ifs <;> simp

theorem mem_carve_writes_cases {cols : ℕ} {a b p : Pos} (h : p ∈ carve_writes cols a b) :
    p = (2 * a.1 + 1, 2 * a.2 + 1) ∨ p = (2 * b.1 + 1, 2 * b.2 + 1) ∨
      p = wallPos cols a b ∨
      (a.1 = b.1 ∧ ((a.2 = 0 ∧ b.2 = cols - 1) ∨ (a.2 = cols - 1 ∧ b.2 = 0)) ∧
        p = (2 * a.1 + 1, 2 * cols)) := by
  have h21 : 2 * cols + 1 - 1 = 2 * cols := by omega
  unfold carve_writes at h
  unfold wallPos
  split_ifs at h with h1 h2
  · rw [if_pos h1, if_pos h2]
    simp only [List.mem_append, List.mem_cons, List.not_mem_nil, or_false,
      List.mem_singleton, h21] at h
    tauto
  · rw [if_pos h1, if_neg h2]
    simp only [List.mem_append, List.mem_cons, List.not_mem_nil, or_false,
      List.mem_singleton] at h
    tauto
  · rw [if_neg h1]
    simp only [List.mem_append, List.mem_cons, List.not_mem_nil, or_false,
      List.mem_singleton] at h
    tauto

/-- Carving between two genuinely adjacent cells adds exactly the merged wall
position to the merged wall set. -/
theorem mergedWallSet_carve {rows cols : ℕ} {m : CylinderMaze} (hcc : m.cols = cols)
    {a b : Pos} (ha : validCell rows cols a) (hne : a ≠ b) (hab : AdjD rows cols a b) :
    mergedWallSet (carve_passage m a b).grid rows cols =
      insert (wallPos cols a b) (mergedWallSet m.grid rows cols) := by
  have hwr := wallPos_range ha hne hab
  ext p
  rw [Finset.mem_insert, mem_mergedWallSet, mem_mergedWallSet]
  rw [carve_grid_apply, hcc]
  constructor
  · rintro ⟨hp1, hp2, hp3, hp4⟩
    by_cases hw : p ∈ carve_writes cols a b
    · rcases mem_carve_writes_cases hw with rfl | rfl | rfl | ⟨h1, h2, rfl⟩
      · exact absurd (by constructor <;> omega) hp3
      · exact absurd (by constructor <;> omega) hp3
      · exact Or.inl rfl
      · exact absurd hp2 (by simp)
    · rw [if_neg hw] at hp4
      exact Or.inr ⟨hp1, hp2, hp3, hp4⟩
  · rintro (rfl | ⟨hp1, hp2, hp3, hp4⟩)
    · exact ⟨hwr.1, hwr.2.1, hwr.2.2, by rw [if_pos (wallPos_mem_writes cols a b)]⟩
    · refine ⟨hp1, hp2, hp3, ?_⟩
      split_ifs
      · rfl
      · exact hp4

/-- Every carve writes the two seam halves together: the columns `0` and
`2*cols` of any storage row stay equal. -/
theorem carve_seam {rows cols : ℕ} {m : CylinderMaze} (hcc : m.cols = cols)
    {a b : Pos} (ha : validCell rows cols a) (hb : validCell rows cols b) (n : ℕ)
    (h : m.grid n 0 = m.grid n (2 * cols)) :
    (carve_passage m a b).grid n 0 = (carve_passage m a b).grid n (2 * cols) := by
  obtain ⟨ha1, ha2⟩ := ha
  obtain ⟨hb1, hb2⟩ := hb
  rw [carve_grid_apply, carve_grid_apply, hcc]
  have hmem : ((n, 0) : Pos) ∈ carve_writes cols a b ↔
      ((n, 2 * cols) : Pos) ∈ carve_writes cols a b := by
    unfold carve_writes
    split_ifs <;> simp [Prod.ext_iff] <;> omega
  by_cases hz : ((n, 0) : Pos) ∈ carve_writes cols a b
  · rw [if_pos hz, if_pos (hmem.1 hz)]
  · rw [if_neg hz, if_neg (fun hx => hz (hmem.2 hx)), h]

theorem carve_marks_from (m : CylinderMaze) (a b : Pos) :
    (carve_passage m a b).grid (2 * a.1 + 1) (2 * a.2 + 1) = Cell.Path := by
  apply carve_writes_mem
  unfold carve_writes
  simp

theorem carve_marks_to (m : CylinderMaze) (a b : Pos) :
    (carve_passage m a b).grid (2 * b.1 + 1) (2 * b.2 + 1) = Cell.Path := by
  apply carve_writes_mem
  unfold carve_writes
  simp

/-! ### Storage reachability -/

theorem mem_nbr_stor {gr gc r c : ℕ} {q : Pos} :
    q ∈ nbr_stor gr gc r c ↔
      (0 < r ∧ q = (r - 1, c)) ∨ (r + 1 < gr ∧ q = (r + 1, c)) ∨
      q = (r, if c = 0 then gc - 1 else c - 1) ∨ q = (r, (c + 1) % gc) := by
  by_cases hu : 0 < r <;> by_cases hd : r + 1 < gr <;> simp [nbr_stor, hu, hd]

/-- One BFS step: move to a storage neighbor marked `Path`. -/
def stepR (g : Grid) (gr gc : ℕ) (p q : Pos) : Prop :=
  q ∈ nbr_stor gr gc p.1 p.2 ∧ g q.1 q.2 = Cell.Path

/-- Reachability through `Path` positions: the relation the BFS of
`can_solve` explores. -/
def Reach (g : Grid) (gr gc : ℕ) : Pos → Pos → Prop :=
  Relation.ReflTransGen (stepR g gr gc)

/-- Pointwise ordering of grids: `Path` markers only grow. -/
def gridLE (g g2 : Grid) : Prop := ∀ r c, g r c = Cell.Path → g2 r c = Cell.Path

theorem gridLE_refl (g : Grid) : gridLE g g := fun _ _ h => h

theorem gridLE_trans {g1 g2 g3 : Grid} (h1 : gridLE g1 g2) (h2 : gridLE g2 g3) :
    gridLE g1 g3 := fun r c h => h2 r c (h1 r c h)

theorem gridLE_carve (m : CylinderMaze) (f t : Pos) :
    gridLE m.grid (carve_passage m f t).grid := fun r c h => carve_mono m f t r c h

theorem reach_mono {g g2 : Grid} {gr gc : ℕ} (hle : gridLE g g2) {p q : Pos}
    (h : Reach g gr gc p q) : Reach g2 gr gc p q := by
  induction h with
  | refl => exact Relation.ReflTransGen.refl
  | tail _ hstep ih =>
    exact Relation.ReflTransGen.tail ih ⟨hstep.1, hle _ _ hstep.2⟩

theorem reach_trans {g : Grid} {gr gc : ℕ} {p q r : Pos}
    (h1 : Reach g gr gc p q) (h2 : Reach g gr gc q r) : Reach g gr gc p r :=
  Relation.ReflTransGen.trans h1 h2

/-! Step builders for the four storage moves. -/

theorem stepR_up {g : Grid} {gr gc r c r2 : ℕ} (h : 0 < r) (he : r2 + 1 = r)
    (hp : g r2 c = Cell.Path) : stepR g gr gc (r, c) (r2, c) :=
  ⟨mem_nbr_stor.2 (Or.inl ⟨h, Prod.ext_iff.2 ⟨by omega, rfl⟩⟩), hp⟩

theorem stepR_down {g : Grid} {gr gc r c r2 : ℕ} (h : r + 1 < gr) (he : r2 = r + 1)
    (hp : g r2 c = Cell.Path) : stepR g gr gc (r, c) (r2, c) :=
  ⟨mem_nbr_stor.2 (Or.inr (Or.inl ⟨h, Prod.ext_iff.2 ⟨he, rfl⟩⟩)), hp⟩

theorem stepR_left {g : Grid} {gr gc r c c2 : ℕ} (h : ¬ c = 0) (he : c2 + 1 = c)
    (hp : g r c2 = Cell.Path) : stepR g gr gc (r, c) (r, c2) :=
  ⟨mem_nbr_stor.2 (Or.inr (Or.inr (Or.inl
    (Prod.ext_iff.2 ⟨rfl, by rw [if_neg h]; omega⟩)))), hp⟩

theorem stepR_left0 {g : Grid} {gr gc r c2 : ℕ} (he : c2 = gc - 1)
    (hp : g r c2 = Cell.Path) : stepR g gr gc (r, 0) (r, c2) :=
  ⟨mem_nbr_stor.2 (Or.inr (Or.inr (Or.inl
    (Prod.ext_iff.2 ⟨rfl, by rw [if_pos rfl]; omega⟩)))), hp⟩

theorem stepR_right {g : Grid} {gr gc r c c2 : ℕ} (h : c + 1 < gc) (he : c2 = c + 1)
    (hp : g r c2 = Cell.Path) : stepR g gr gc (r, c) (r, c2) :=
  ⟨mem_nbr_stor.2 (Or.inr (Or.inr (Or.inr
    (Prod.ext_iff.2 ⟨rfl, by rw [Nat.mod_eq_of_lt h]; omega⟩)))), hp⟩

theorem stepR_right_wrap {g : Grid} {gr gc r c : ℕ} (h : c + 1 = gc) (hgc : 0 < gc)
    (hp : g r 0 = Cell.Path) : stepR g gr gc (r, c) (r, 0) :=
  ⟨mem_nbr_stor.2 (Or.inr (Or.inr (Or.inr
    (Prod.ext_iff.2 ⟨rfl, by rw [h, Nat.mod_self]⟩)))), hp⟩

/-- After carving between two genuinely adjacent cells, the two cell positions
are mutually reachable in the carved grid. -/
theorem carve_reach {rows cols : ℕ} {m : CylinderMaze} (hcc : m.cols = cols)
    {a b : Pos} (ha : validCell rows cols a) (hb : validCell rows cols b)
    (hne : a ≠ b) (hab : AdjD rows cols a b) :
    Reach (carve_passage m a b).grid (2 * rows + 1) (2 * cols + 1)
        (2 * a.1 + 1, 2 * a.2 + 1) (2 * b.1 + 1, 2 * b.2 + 1) ∧
      Reach (carve_passage m a b).grid (2 * rows + 1) (2 * cols + 1)
        (2 * b.1 + 1, 2 * b.2 + 1) (2 * a.1 + 1, 2 * a.2 + 1) := by
  have PA := carve_marks_from m a b
  have PB := carve_marks_to m a b
  have hwmem : wallPos cols a b ∈ carve_writes m.cols a b := by
    rw [hcc]; exact wallPos_mem_writes cols a b
  have hav := ha
  have hbv := hb
  obtain ⟨ha1, ha2⟩ := hav
  obtain ⟨hb1, hb2⟩ := hbv
  rcases adjD_cases ha hne hab with h | h | h | h
  · -- up: b is the row above a
    obtain ⟨hr, hc⟩ := h
    have hw : wallPos cols a b = (a.1 + b.1 + 1, 2 * a.2 + 1) :=
      wallPos_of_ne cols (by omega)
    rw [hw] at hwmem
    have PW := carve_writes_mem m a b _ _ hwmem
    have hcol : 2 * b.2 + 1 = 2 * a.2 + 1 := by omega
    rw [hcol] at PB ⊢
    constructor
    · refine Relation.ReflTransGen.head (stepR_up (by omega) (by omega) PW) ?_
      exact Relation.ReflTransGen.single (stepR_up (by omega) (by omega) PB)
    · refine Relation.ReflTransGen.head (stepR_down (by omega) (by omega) PW) ?_
      exact Relation.ReflTransGen.single (stepR_down (by omega) (by omega) PA)
  · -- down: b is the row below a
    obtain ⟨hr, hbr, hc⟩ := h
    have hw : wallPos cols a b = (a.1 + b.1 + 1, 2 * a.2 + 1) :=
      wallPos_of_ne cols (by omega)
    rw [hw] at hwmem
    have PW := carve_writes_mem m a b _ _ hwmem
    have hcol : 2 * b.2 + 1 = 2 * a.2 + 1 := by omega
    rw [hcol] at PB ⊢
    constructor
    · refine Relation.ReflTransGen.head (stepR_down (by omega) (by omega) PW) ?_
      exact Relation.ReflTransGen.single (stepR_down (by omega) (by omega) PB)
    · refine Relation.ReflTransGen.head (stepR_up (by omega) (by omega) PW) ?_
      exact Relation.ReflTransGen.single (stepR_up (by omega) (by omega) PA)
  · -- horizontal, non-wrapping
    obtain ⟨hr, hnw, hor, hac, hbc⟩ := h
    have hw : wallPos cols a b = (2 * a.1 + 1, a.2 + b.2 + 1) :=
      wallPos_of_horiz cols hr hnw
    rw [hw] at hwmem
    have PW := carve_writes_mem m a b _ _ hwmem
    have hrow : 2 * b.1 + 1 = 2 * a.1 + 1 := by omega
    rw [show ((2 * b.1 + 1, 2 * b.2 + 1) : Pos) = (2 * a.1 + 1, 2 * b.2 + 1) from
      Prod.ext_iff.2 ⟨hrow, rfl⟩]
    have PB2 : (carve_passage m a b).grid (2 * a.1 + 1) (2 * b.2 + 1) = Cell.Path := by
      rw [hrow] at PB; exact PB
    rcases hor with hd | hd
    · constructor
      · refine Relation.ReflTransGen.head (stepR_right (by omega) (by omega) PW) ?_
        exact Relation.ReflTransGen.single (stepR_right (by omega) (by omega) PB2)
      · refine Relation.ReflTransGen.head (stepR_left (by omega) (by omega) PW) ?_
        exact Relation.ReflTransGen.single (stepR_left (by omega) (by omega) PA)
    · constructor
      · refine Relation.ReflTransGen.head (stepR_left (by omega) (by omega) PW) ?_
        exact Relation.ReflTransGen.single (stepR_left (by omega) (by omega) PB2)
      · refine Relation.ReflTransGen.head (stepR_right (by omega) (by omega) PW) ?_
        exact Relation.ReflTransGen.single (stepR_right (by omega) (by omega) PA)
  · -- horizontal, wrapping
    obtain ⟨hr, hcols, hor⟩ := h
    have hw : wallPos cols a b = (2 * a.1 + 1, 0) :=
      wallPos_of_wrap cols hr (by tauto)
    rw [hw] at hwmem
    have P0 := carve_writes_mem m a b _ _ hwmem
    have hmem2 : ((2 * a.1 + 1, 2 * cols) : Pos) ∈ carve_writes m.cols a b := by
      rw [hcc]
      unfold carve_writes
      rw [if_pos hr, if_pos (by tauto)]
      have : 2 * cols + 1 - 1 = 2 * cols := by omega
      simp [this]
    have P2C := carve_writes_mem m a b _ _ hmem2
    have hrow : 2 * b.1 + 1 = 2 * a.1 + 1 := by omega
    rw [show ((2 * b.1 + 1, 2 * b.2 + 1) : Pos) = (2 * a.1 + 1, 2 * b.2 + 1) from
      Prod.ext_iff.2 ⟨hrow, rfl⟩]
    have PB2 : (carve_passage m a b).grid (2 * a.1 + 1) (2 * b.2 + 1) = Cell.Path := by
      rw [hrow] at PB; exact PB
    rcases hor with ⟨hz, ho⟩ | ⟨ho, hz⟩
    · -- a at column 0, b at column cols-1
      constructor
      · refine Relation.ReflTransGen.head (stepR_left (by omega) (by omega) P0) ?_
        refine Relation.ReflTransGen.head (stepR_left0 (by omega) P2C) ?_
        exact Relation.ReflTransGen.single (stepR_left (by omega) (by omega) PB2)
      · refine Relation.ReflTransGen.head (stepR_right (by omega) (by omega) P2C) ?_
        refine Relation.ReflTransGen.head (stepR_right_wrap (by omega) (by omega) P0) ?_
        exact Relation.ReflTransGen.single (stepR_right (by omega) (by omega) PA)
    · -- a at column cols-1, b at column 0
      constructor
      · refine Relation.ReflTransGen.head (stepR_right (by omega) (by omega) P2C) ?_
        refine Relation.ReflTransGen.head (stepR_right_wrap (by omega) (by omega) P0) ?_
        exact Relation.ReflTransGen.single (stepR_right (by omega) (by omega) PB2)
      · refine Relation.ReflTransGen.head (stepR_left (by omega) (by omega) P0) ?_
        refine Relation.ReflTransGen.head (stepR_left0 (by omega) P2C) ?_
        exact Relation.ReflTransGen.single (stepR_left (by omega) (by omega) PA)

/-! ### List helpers for the loop-erased walk -/

theorem pos_of_eq_none {x : Pos} : ∀ {l : List Pos}, pos_of x l = none ↔ x ∉ l := by
  intro l
  induction l with
  | nil => simp [pos_of]
  | cons y l ih =>
    by_cases h : y = x
    · simp [pos_of, h]
    · simp only [pos_of, if_neg h, List.mem_cons]
      cases hpo : pos_of x l <;> simp_all [Option.map]
      exact fun hx => h hx.symm

theorem pos_of_lt {x : Pos} : ∀ {l : List Pos} {k : ℕ},
    pos_of x l = some k → k < l.length := by
  intro l
  induction l with
  | nil => simp [pos_of]
  | cons y l ih =>
    intro k h
    by_cases hy : y = x
    · simp [pos_of, hy] at h
      simp only [List.length_cons]
      omega
    · simp only [pos_of, if_neg hy] at h
      cases hpo : pos_of x l with
      | none => rw [hpo] at h; simp [Option.map] at h
      | some j =>
        rw [hpo] at h
        simp [Option.map] at h
        have := ih hpo
        simp [List.length_cons]
        omega

theorem pos_of_get {x : Pos} : ∀ {l : List Pos} {k : ℕ}
    (h : pos_of x l = some k) (hk : k < l.length), l.get ⟨k, hk⟩ = x := by
  intro l
  induction l with
  | nil => simp [pos_of]
  | cons y l ih =>
    intro k h hk
    by_cases hy : y = x
    · simp [pos_of, hy] at h
      subst h
      simpa using hy
    · simp only [pos_of, if_neg hy] at h
      cases hpo : pos_of x l with
      | none => rw [hpo] at h; simp [Option.map] at h
      | some j =>
        rw [hpo] at h
        simp [Option.map] at h
        subst h
        simpa using ih hpo (by simpa using hk)

theorem getD_mem {l : List Pos} {n : ℕ} (d : Pos) (h : n < l.length) :
    l.getD n d ∈ l := by
  rw [List.getD_eq_getElem l d h]
  exact List.getElem_mem h

theorem head?_take_succ {α : Type} (l : List α) (n : ℕ) :
    (l.take (n + 1)).head? = l.head? := by
  cases l <;> simp

theorem head?_concat {α : Type} {l : List α} (a : α) (h : l ≠ []) :
    (l ++ [a]).head? = l.head? := by
  cases l
  · exact absurd rfl h
  · simp

theorem getLast?_take_succ {α : Type} : ∀ (l : List α) (k : ℕ) (hk : k < l.length),
    (l.take (k + 1)).getLast? = some (l.get ⟨k, hk⟩) := by
  intro l
  induction l with
  | nil => simp
  | cons y l ih =>
    intro k hk
    cases k with
    | zero => simp
    | succ j =>
      have hj : j < l.length := by simpa using hk
      have := ih j hj
      simp only [List.take_succ_cons]
      rw [List.getLast?_cons]
      cases hl : l.take (j + 1) with
      | nil =>
        exfalso
        have : (l.take (j + 1)).length = min (j + 1) l.length := List.length_take _ _
        rw [hl] at this
        simp at this
        omega
      | cons z zs =>
        rw [hl] at this
        simpa [this] using this

theorem chain'_take {α : Type} {R : α → α → Prop} {l : List α}
    (h : List.Chain' R l) (n : ℕ) : List.Chain' R (l.take n) := by
  have hsplit := List.take_append_drop n l
  rw [← hsplit] at h
  exact (List.chain'_append.1 h).1

theorem ne_nil_take_succ {α : Type} {l : List α} (h : l ≠ []) (k : ℕ) :
    l.take (k + 1) ≠ [] := by
  cases l
  · exact absurd rfl h
  · simp

theorem list_decomp_getLast {α : Type} {l : List α} {a : α}
    (h : l.getLast? = some a) : l = l.dropLast ++ [a] := by
  cases l with
  | nil => simp at h
  | cons y ys =>
    have hne : (y :: ys : List α) ≠ [] := by simp
    rw [List.getLast?_eq_getLast _ hne] at h
    have := (List.dropLast_append_getLast hne).symm
    simp only [Option.some.injEq] at h
    rw [h] at this
    exact this

/-- `nbr_list` always has at least its two horizontal entries. -/
theorem nbr_list_length_pos (rows cols r c : ℕ) : 0 < (nbr_list rows cols r c).length := by
  unfold nbr_list
  split_ifs <;> simp

/-! ### The walk lemma -/

/-- Specification of a successful loop-erased walk: it preserves the walk-path
invariants (nonempty, nodup, an adjacency chain of valid cells, head fixed,
no element but possibly the last visited) and ends in the visited set. -/
theorem loop_walk_spec {rows cols : ℕ} {m : CylinderMaze} (hmr : m.rows = rows)
    (hmc : m.cols = cols) {seq : ℕ → ℕ} {inM : Finset Pos} :
    ∀ (fuel : ℕ) (path : List Pos) (cur : Pos) (i : ℕ) (out : List Pos × ℕ),
      loop_walk m seq inM fuel path cur i = some out →
      path.getLast? = some cur →
      path.Nodup →
      List.Chain' (AdjD rows cols) path →
      (∀ x ∈ path, validCell rows cols x) →
      (∀ x ∈ path.dropLast, x ∉ inM) →
      out.1.head? = path.head? ∧
      out.1.Nodup ∧
      List.Chain' (AdjD rows cols) out.1 ∧
      (∀ x ∈ out.1, validCell rows cols x) ∧
      (∀ x ∈ out.1.dropLast, x ∉ inM) ∧
      ∃ lst, out.1.getLast? = some lst ∧ lst ∈ inM := by
  intro fuel
  induction fuel with
  | zero => intro path cur i out h; exact absurd h (by simp [loop_walk])
  | succ fuel ih =>
    intro path cur i out h hlast hnd hch hval hdro
    rw [loop_walk] at h
    by_cases hin : cur ∈ inM
    · rw [if_pos hin] at h
      obtain rfl : (path, i) = out := by simpa using h
      exact ⟨rfl, hnd, hch, hval, hdro, cur, hlast, hin⟩
    · rw [if_neg hin] at h
      dsimp only at h
      have hpne : path ≠ [] := by
        intro hx; rw [hx] at hlast; simp at hlast
      have hcurmem : cur ∈ path := by
        rw [list_decomp_getLast hlast]
        simp
      have hAll : ∀ x ∈ path, x ∉ inM := by
        intro x hx
        rw [list_decomp_getLast hlast] at hx
        rcases List.mem_append.1 hx with hx2 | hx2
        · exact hdro x hx2
        · rw [List.mem_singleton.1 hx2]; exact hin
      have hcv : validCell rows cols cur := hval cur hcurmem
      set ns := nbr_list m.rows m.cols cur.1 cur.2 with hns
      have hlen : 0 < ns.length := nbr_list_length_pos _ _ _ _
      set next := ns.getD (seq i % ns.length) (0, 0) with hnext
      have hmem : next ∈ ns := getD_mem _ (Nat.mod_lt _ hlen)
      have hadj : AdjD rows cols cur next := by
        unfold AdjD
        rw [← hmr, ← hmc]
        exact hmem
      have hnv : validCell rows cols next := nbr_valid hcv hadj
      cases hpo : pos_of next path with
      | some p =>
        simp only [hpo] at h
        have hp := pos_of_lt hpo
        have hget := pos_of_get hpo hp
        have hout := ih (path.take (p + 1)) next (i + 1) out h
          (by rw [getLast?_take_succ path p hp, hget])
          (hnd.sublist (List.take_sublist _ _))
          (chain'_take hch _)
          (fun x hx => hval x (List.take_subset _ _ hx))
          (fun x hx => hAll x (List.take_subset _ _ (List.dropLast_subset _ hx)))
        obtain ⟨h1, h2, h3, h4, h5, h6⟩ := hout
        exact ⟨by rw [h1, head?_take_succ], h2, h3, h4, h5, h6⟩
      | none =>
        simp only [hpo] at h
        have hnotmem : next ∉ path := pos_of_eq_none.1 hpo
        have hout := ih (path ++ [next]) next (i + 1) out h
          (List.getLast?_concat _)
          (by
            rw [List.nodup_append]
            exact ⟨hnd, List.nodup_singleton _, by
              intro x hx
              simp only [List.mem_singleton]
              intro he
              exact hnotmem (he ▸ hx)⟩)
          (by
            rw [List.chain'_append]
            refine ⟨hch, List.chain'_singleton _, ?_⟩
            intro x hx y hy
            rw [hlast] at hx
            simp only [Option.mem_def, Option.some.injEq] at hx
            simp only [List.head?_cons, Option.mem_def, Option.some.injEq] at hy
            rw [← hx, ← hy] at *
            exact hadj)
          (by
            intro x hx
            rcases List.mem_append.1 hx with hx2 | hx2
            · exact hval x hx2
            · rw [List.mem_singleton.1 hx2]; exact hnv)
          (by
            rw [List.dropLast_concat]
            exact hAll)
        obtain ⟨h1, h2, h3, h4, h5, h6⟩ := hout
        exact ⟨by rw [h1, head?_concat _ hpne], h2, h3, h4, h5, h6⟩

/-! ### The carve chain performed by `add_path` -/

/-- The grid effect of the `add_path` loop: carve between consecutive path
cells, left to right. -/
def carve_chain (m : CylinderMaze) : Pos → List Pos → CylinderMaze
  | _, [] => m
  | prev, b :: rest => carve_chain (carve_passage m prev b) b rest

theorem add_path_some_eq : ∀ (rest : List Pos) (m : CylinderMaze) (inM : Finset Pos)
    (prev : Pos),
    add_path m inM (some prev) rest = (carve_chain m prev rest, inM ∪ rest.toFinset) := by
  intro rest
  induction rest with
  | nil => intro m inM prev; simp [add_path, carve_chain]
  | cons b r ih =>
    intro m inM prev
    show add_path (carve_passage m prev b) (insert b inM) (some b) r = _
    rw [ih]
    show (carve_chain (carve_passage m prev b) b r, _) = (carve_chain m prev (b :: r), _)
    refine Prod.ext_iff.2 ⟨rfl, ?_⟩
    ext x
    simp [Finset.mem_insert, Finset.mem_union, List.mem_toFinset]

theorem add_path_none_eq (m : CylinderMaze) (inM : Finset Pos) (c : Pos) (rest : List Pos) :
    add_path m inM none (c :: rest) = (carve_chain m c rest, inM ∪ (c :: rest).toFinset) := by
  show add_path m (insert c inM) (some c) rest = _
  rw [add_path_some_eq]
  refine Prod.ext_iff.2 ⟨rfl, ?_⟩
  ext x
  simp [Finset.mem_insert, Finset.mem_union, List.mem_toFinset]

theorem carve_chain_rows : ∀ (rest : List Pos) (prev : Pos) (m : CylinderMaze),
    (carve_chain m prev rest).rows = m.rows := by
  intro rest
  induction rest with
  | nil => intro prev m; rfl
  | cons b r ih => intro prev m; exact (ih b (carve_passage m prev b)).trans rfl

theorem carve_chain_cols : ∀ (rest : List Pos) (prev : Pos) (m : CylinderMaze),
    (carve_chain m prev rest).cols = m.cols := by
  intro rest
  induction rest with
  | nil => intro prev m; rfl
  | cons b r ih => intro prev m; exact (ih b (carve_passage m prev b)).trans rfl

theorem carve_chain_mono : ∀ (rest : List Pos) (prev : Pos) (m : CylinderMaze),
    gridLE m.grid (carve_chain m prev rest).grid := by
  intro rest
  induction rest with
  | nil => intro prev m; exact gridLE_refl _
  | cons b r ih =>
    intro prev m
    exact gridLE_trans (gridLE_carve m prev b) (ih b (carve_passage m prev b))

theorem carve_chain_marks : ∀ (rest : List Pos) (prev : Pos) (m : CylinderMaze),
    rest ≠ [] → ∀ x ∈ prev :: rest,
      (carve_chain m prev rest).grid (2 * x.1 + 1) (2 * x.2 + 1) = Cell.Path := by
  intro rest
  induction rest with
  | nil => intro prev m h; exact absurd rfl h
  | cons b r ih =>
    intro prev m _ x hx
    rcases List.mem_cons.1 hx with rfl | hx2
    · exact carve_chain_mono r b (carve_passage m x b) _ _ (carve_marks_from m x b)
    · cases r with
      | nil =>
        rw [List.mem_singleton.1 hx2]
        exact carve_marks_to m prev b
      | cons c cs =>
        exact ih b (carve_passage m prev b) (by simp) x hx2

theorem carve_chain_seam {rows cols : ℕ} : ∀ (rest : List Pos) (prev : Pos)
    (m : CylinderMaze), m.cols = cols →
    (∀ x ∈ prev :: rest, validCell rows cols x) →
    (∀ n, m.grid n 0 = m.grid n (2 * cols)) →
    ∀ n, (carve_chain m prev rest).grid n 0 = (carve_chain m prev rest).grid n (2 * cols) := by
  intro rest
  induction rest with
  | nil => intro prev m _ _ hs n; exact hs n
  | cons b r ih =>
    intro prev m hmc hval hs n
    refine ih b (carve_passage m prev b) (carve_cols m prev b ▸ hmc)
      (fun x hx => hval x (List.mem_cons_of_mem _ hx)) ?_ n
    intro n2
    exact carve_seam hmc (hval prev (by simp)) (hval b (by simp)) n2 (hs n2)

/-- The walls carved along a chain. -/
def chain_walls (cols : ℕ) : Pos → List Pos → Finset Pos
  | _, [] => ∅
  | prev, b :: rest => insert (wallPos cols prev b) (chain_walls cols b rest)

theorem chain_walls_mem_spec {rows cols : ℕ} : ∀ (rest : List Pos) (prev : Pos) {w : Pos},
    w ∈ chain_walls cols prev rest →
    List.Chain' (AdjD rows cols) (prev :: rest) →
    (prev :: rest).Nodup →
    (∀ x ∈ prev :: rest, validCell rows cols x) →
    ∃ u v, u ∈ (prev :: rest).dropLast ∧ v ∈ rest ∧ AdjD rows cols u v ∧ u ≠ v ∧
      validCell rows cols u ∧ wallPos cols u v = w := by
  intro rest
  induction rest with
  | nil => intro prev w hw; exact absurd hw (by simp [chain_walls])
  | cons b r ih =>
    intro prev w hw hch hnd hval
    rcases Finset.mem_insert.1 hw with rfl | hw2
    · refine ⟨prev, b, ?_, by simp, (List.chain'_cons.1 hch).1, ?_,
        hval prev (by simp), rfl⟩
      · show prev ∈ prev :: (b :: r).dropLast
        simp
      · intro he
        exact (List.nodup_cons.1 hnd).1 (he ▸ List.mem_cons_self b r)
    · obtain ⟨u, v, hu, hv, hadj, hne, huv, hwp⟩ := ih b hw2
        (List.chain'_cons.1 hch).2 (List.nodup_cons.1 hnd).2
        (fun x hx => hval x (List.mem_cons_of_mem _ hx))
      refine ⟨u, v, ?_, List.mem_cons_of_mem _ hv, hadj, hne, huv, hwp⟩
      show u ∈ prev :: (b :: r).dropLast
      exact List.mem_cons_of_mem _ hu

theorem carve_chain_walls {rows cols : ℕ} : ∀ (rest : List Pos) (prev : Pos)
    (m : CylinderMaze), m.cols = cols →
    List.Chain' (AdjD rows cols) (prev :: rest) →
    (prev :: rest).Nodup →
    (∀ x ∈ prev :: rest, validCell rows cols x) →
    mergedWallSet (carve_chain m prev rest).grid rows cols =
      mergedWallSet m.grid rows cols ∪ chain_walls cols prev rest := by
  intro rest
  induction rest with
  | nil => intro prev m _ _ _ _; simp [carve_chain, chain_walls]
  | cons b r ih =>
    intro prev m hmc hch hnd hval
    have hadj : AdjD rows cols prev b := (List.chain'_cons.1 hch).1
    have hne : prev ≠ b := by
      intro he
      exact (List.nodup_cons.1 hnd).1 (he ▸ List.mem_cons_self b r)
    show mergedWallSet (carve_chain (carve_passage m prev b) b r).grid rows cols = _
    rw [ih b (carve_passage m prev b) (carve_cols m prev b ▸ hmc)
      (List.chain'_cons.1 hch).2 (List.nodup_cons.1 hnd).2
      (fun x hx => hval x (List.mem_cons_of_mem _ hx))]
    rw [mergedWallSet_carve hmc (hval prev (by simp)) hne hadj]
    show insert (wallPos cols prev b) (mergedWallSet m.grid rows cols) ∪ _ =
      _ ∪ insert (wallPos cols prev b) (chain_walls cols b r)
    rw [Finset.insert_union, Finset.union_insert]

theorem chain_walls_card {rows cols : ℕ} : ∀ (rest : List Pos) (prev : Pos),
    List.Chain' (AdjD rows cols) (prev :: rest) →
    (prev :: rest).Nodup →
    (∀ x ∈ prev :: rest, validCell rows cols x) →
    (chain_walls cols prev rest).card = rest.length := by
  intro rest
  induction rest with
  | nil => intro prev _ _ _; simp [chain_walls]
  | cons b r ih =>
    intro prev hch hnd hval
    have hadj : AdjD rows cols prev b := (List.chain'_cons.1 hch).1
    have hne : prev ≠ b := by
      intro he
      exact (List.nodup_cons.1 hnd).1 (he ▸ List.mem_cons_self b r)
    show (insert (wallPos cols prev b) (chain_walls cols b r)).card = r.length + 1
    rw [Finset.card_insert_of_not_mem, ih b (List.chain'_cons.1 hch).2
      (List.nodup_cons.1 hnd).2 (fun x hx => hval x (List.mem_cons_of_mem _ hx))]
    intro hmem
    obtain ⟨u, v, hu, hv, hadj2, hne2, huv, hwp⟩ := chain_walls_mem_spec r b hmem
      (List.chain'_cons.1 hch).2 (List.nodup_cons.1 hnd).2
      (fun x hx => hval x (List.mem_cons_of_mem _ hx))
    rcases wallPos_inj (hval prev (by simp)) hne hadj huv hne2 hadj2 hwp.symm with
      ⟨rfl, rfl⟩ | ⟨rfl, rfl⟩
    · exact (List.nodup_cons.1 hnd).1 (List.dropLast_subset _ hu)
    · exact (List.nodup_cons.1 hnd).1 (List.mem_cons_of_mem _ hv)

theorem carve_chain_reach {rows cols : ℕ} : ∀ (rest : List Pos) (prev : Pos)
    (m : CylinderMaze), m.cols = cols →
    List.Chain' (AdjD rows cols) (prev :: rest) →
    (prev :: rest).Nodup →
    (∀ x ∈ prev :: rest, validCell rows cols x) →
    ∀ x ∈ prev :: rest,
      Reach (carve_chain m prev rest).grid (2 * rows + 1) (2 * cols + 1)
          (2 * x.1 + 1, 2 * x.2 + 1) (2 * prev.1 + 1, 2 * prev.2 + 1) ∧
        Reach (carve_chain m prev rest).grid (2 * rows + 1) (2 * cols + 1)
          (2 * prev.1 + 1, 2 * prev.2 + 1) (2 * x.1 + 1, 2 * x.2 + 1) := by
  intro rest
  induction rest with
  | nil =>
    intro prev m _ _ _ _ x hx
    rw [List.mem_singleton.1 hx]
    exact ⟨Relation.ReflTransGen.refl, Relation.ReflTransGen.refl⟩
  | cons b r ih =>
    intro prev m hmc hch hnd hval x hx
    have hadj : AdjD rows cols prev b := (List.chain'_cons.1 hch).1
    have hne : prev ≠ b := by
      intro he
      exact (List.nodup_cons.1 hnd).1 (he ▸ List.mem_cons_self b r)
    have hpb := carve_reach hmc (hval prev (by simp)) (hval b (by simp)) hne hadj
    have hmono := carve_chain_mono r b (carve_passage m prev b)
    have hAB : Reach (carve_chain m prev (b :: r)).grid (2 * rows + 1) (2 * cols + 1)
        (2 * prev.1 + 1, 2 * prev.2 + 1) (2 * b.1 + 1, 2 * b.2 + 1) :=
      reach_mono hmono hpb.1
    have hBA : Reach (carve_chain m prev (b :: r)).grid (2 * rows + 1) (2 * cols + 1)
        (2 * b.1 + 1, 2 * b.2 + 1) (2 * prev.1 + 1, 2 * prev.2 + 1) :=
      reach_mono hmono hpb.2
    rcases List.mem_cons.1 hx with rfl | hx2
    · exact ⟨Relation.ReflTransGen.refl, Relation.ReflTransGen.refl⟩
    · have hxb := ih b (carve_passage m prev b) (carve_cols m prev b ▸ hmc)
        (List.chain'_cons.1 hch).2 (List.nodup_cons.1 hnd).2
        (fun y hy => hval y (List.mem_cons_of_mem _ hy)) x hx2
      exact ⟨reach_trans hxb.1 hBA, reach_trans hAB hxb.2⟩

/-! ### The generation invariant -/

/-- Invariant of Wilson generation: dimensions fixed; visited cells are valid,
marked `Path`, and mutually reachable through the carved grid; the merged wall
count is one less than the visited count; every carved wall is justified by an
adjacent visited pair; and the two seam columns agree on every row. -/
structure GInv (rows cols : ℕ) (m : CylinderMaze) (inM : Finset Pos) : Prop where
  dimr : m.rows = rows
  dimc : m.cols = cols
  vld : ∀ a ∈ inM, validCell rows cols a
  marks : ∀ a ∈ inM, m.grid (2 * a.1 + 1) (2 * a.2 + 1) = Cell.Path
  conn : ∀ a ∈ inM, ∀ b ∈ inM,
    Reach m.grid (2 * rows + 1) (2 * cols + 1)
      (2 * a.1 + 1, 2 * a.2 + 1) (2 * b.1 + 1, 2 * b.2 + 1)
  wcount : (mergedWallSet m.grid rows cols).card + 1 = inM.card
  just : ∀ p ∈ mergedWallSet m.grid rows cols, ∃ u v, u ∈ inM ∧ v ∈ inM ∧
    u ≠ v ∧ AdjD rows cols u v ∧ wallPos cols u v = p
  seam : ∀ n, m.grid n 0 = m.grid n (2 * cols)

/-- `add_path` (decomposed as `carve_chain` on the grid and a union on the
visited set) preserves the generation invariant, given the walk postconditions. -/
theorem add_path_ginv {rows cols : ℕ} {m : CylinderMaze} {inM : Finset Pos}
    (hinv : GInv rows cols m inM) {c : Pos} {rest : List Pos}
    (hch : List.Chain' (AdjD rows cols) (c :: rest))
    (hnd : (c :: rest).Nodup)
    (hval : ∀ x ∈ c :: rest, validCell rows cols x)
    (hdro : ∀ x ∈ (c :: rest).dropLast, x ∉ inM)
    {lst : Pos} (hl : (c :: rest).getLast? = some lst) (hlin : lst ∈ inM)
    (hcin : c ∉ inM) :
    GInv rows cols (carve_chain m c rest) (inM ∪ (c :: rest).toFinset) := by
  have hrne : rest ≠ [] := by
    intro h
    subst h
    have hcl : c = lst := by simpa using hl
    exact hcin (hcl.symm ▸ hlin)
  have hmono := carve_chain_mono rest c m
  have hreach := carve_chain_reach rest c m hinv.dimc hch hnd hval
  have hlmem : lst ∈ c :: rest := by
    rw [list_decomp_getLast hl]
    simp
  have hlr := hreach lst hlmem
  have hwalls := carve_chain_walls rest c m hinv.dimc hch hnd hval
  have hdisj : Disjoint (mergedWallSet m.grid rows cols) (chain_walls cols c rest) := by
    rw [Finset.disjoint_left]
    intro w hw hcw
    obtain ⟨u, v, hu, hv, hadj2, hne2, hvu, hwp⟩ :=
      chain_walls_mem_spec rest c hcw hch hnd hval
    obtain ⟨u2, v2, hu2, hv2, hne3, hadj3, hwp2⟩ := hinv.just w hw
    rcases wallPos_inj hvu hne2 hadj2 (hinv.vld u2 hu2) hne3 hadj3
        (hwp.trans hwp2.symm) with ⟨h1, h2⟩ | ⟨h1, h2⟩
    · exact hdro u hu (h1 ▸ hu2)
    · exact hdro u hu (h2 ▸ hv2)
  have hsd : (c :: rest).toFinset \ inM = (c :: rest).dropLast.toFinset := by
    ext x
    simp only [Finset.mem_sdiff, List.mem_toFinset]
    constructor
    · rintro ⟨hx, hxn⟩
      rw [list_decomp_getLast hl] at hx
      rcases List.mem_append.1 hx with h1 | h1
      · exact h1
      · rw [List.mem_singleton.1 h1] at hxn
        exact absurd hlin hxn
    · intro hx
      exact ⟨List.dropLast_subset _ hx, hdro x hx⟩
  have hcard2 : (inM ∪ (c :: rest).toFinset).card = inM.card + rest.length := by
    have he : inM ∪ (c :: rest).toFinset = inM ∪ ((c :: rest).toFinset \ inM) :=
      (Finset.union_sdiff_self_eq_union).symm
    rw [he, Finset.card_union_of_disjoint Finset.disjoint_sdiff, hsd,
      List.toFinset_card_of_nodup (hnd.sublist (List.dropLast_sublist _))]
    simp
  refine ⟨(carve_chain_rows rest c m).trans hinv.dimr,
    (carve_chain_cols rest c m).trans hinv.dimc, ?_, ?_, ?_, ?_, ?_, ?_⟩
  · intro a ha
    rcases Finset.mem_union.1 ha with ha2 | ha2
    · exact hinv.vld a ha2
    · exact hval a (List.mem_toFinset.1 ha2)
  · intro a ha
    rcases Finset.mem_union.1 ha with ha2 | ha2
    · exact hmono _ _ (hinv.marks a ha2)
    · exact carve_chain_marks rest c m hrne a (List.mem_toFinset.1 ha2)
  · intro a ha b hb
    rcases Finset.mem_union.1 ha with ha2 | ha2 <;>
      rcases Finset.mem_union.1 hb with hb2 | hb2
    · exact reach_mono hmono (hinv.conn a ha2 b hb2)
    · exact reach_trans (reach_mono hmono (hinv.conn a ha2 lst hlin))
        (reach_trans hlr.1 (hreach b (List.mem_toFinset.1 hb2)).2)
    · exact reach_trans (hreach a (List.mem_toFinset.1 ha2)).1
        (reach_trans hlr.2 (reach_mono hmono (hinv.conn lst hlin b hb2)))
    · exact reach_trans (hreach a (List.mem_toFinset.1 ha2)).1
        (hreach b (List.mem_toFinset.1 hb2)).2
  · rw [hwalls, Finset.card_union_of_disjoint hdisj,
      chain_walls_card rest c hch hnd hval, hcard2]
    have := hinv.wcount
    omega
  · intro p hp
    rw [hwalls] at hp
    rcases Finset.mem_union.1 hp with hp2 | hp2
    · obtain ⟨u, v, hu, hv, hne2, hadj2, hwp⟩ := hinv.just p hp2
      exact ⟨u, v, Finset.mem_union_left _ hu, Finset.mem_union_left _ hv,
        hne2, hadj2, hwp⟩
    · obtain ⟨u, v, hu, hv, hadj2, hne2, hvu, hwp⟩ :=
        chain_walls_mem_spec rest c hp2 hch hnd hval
      exact ⟨u, v,
        Finset.mem_union_right _ (List.mem_toFinset.2 (List.dropLast_subset _ hu)),
        Finset.mem_union_right _ (List.mem_toFinset.2 (List.mem_cons_of_mem _ hv)),
        hne2, hadj2, hwp⟩
  · exact carve_chain_seam rest c m hinv.dimc hval hinv.seam

/-! ### The generation loop preserves the invariant -/

theorem gen_cell_step_ginv {rows cols : ℕ} {seq : ℕ → ℕ} {fuel : ℕ}
    {st st2 : CylinderMaze × Finset Pos × ℕ} {cell : Pos}
    (h : gen_cell_step seq fuel st cell = some st2)
    (hinv : GInv rows cols st.1 st.2.1)
    (hcell : validCell rows cols cell) :
    GInv rows cols st2.1 st2.2.1 ∧ st.2.1 ⊆ st2.2.1 ∧ cell ∈ st2.2.1 := by
  unfold gen_cell_step at h
  by_cases hin : cell ∈ st.2.1
  · rw [if_pos hin] at h
    obtain rfl : st = st2 := by simpa using h
    exact ⟨hinv, Finset.Subset.refl _, hin⟩
  · rw [if_neg hin] at h
    cases hw : loop_walk st.1 seq st.2.1 fuel [cell] cell st.2.2 with
    | none => rw [hw] at h; simp at h
    | some out =>
      rw [hw] at h
      simp only [Option.some.injEq] at h
      obtain ⟨hhead, hnd, hch, hval, hdro, lst, hl, hlin⟩ :=
        loop_walk_spec hinv.dimr hinv.dimc fuel [cell] cell st.2.2 out hw
          (by simp) (List.nodup_singleton _) (List.chain'_singleton _)
          (by intro x hx; rw [List.mem_singleton.1 hx]; exact hcell)
          (by simp)
      have hpne : out.1 ≠ [] := by
        intro hx
        rw [hx] at hl
        simp at hl
      cases hpath : out.1 with
      | nil => exact absurd hpath hpne
      | cons c2 rest =>
        rw [hpath] at hhead hnd hch hval hdro hl
        have hc2 : c2 = cell := by simpa using hhead
        subst hc2
        rw [hpath, add_path_none_eq] at h
        have hg := add_path_ginv hinv hch hnd hval hdro hl hlin hin
        rw [← h]
        refine ⟨hg, ?_, ?_⟩
        · intro x hx
          exact Finset.mem_union_left _ hx
        · exact Finset.mem_union_right _ (List.mem_toFinset.2 (by simp))

theorem gen_fold_ginv {rows cols : ℕ} {seq : ℕ → ℕ} {fuel : ℕ} :
    ∀ (cells : List Pos) (st st2 : CylinderMaze × Finset Pos × ℕ),
      List.foldlM (gen_cell_step seq fuel) st cells = some st2 →
      GInv rows cols st.1 st.2.1 →
      (∀ c ∈ cells, validCell rows cols c) →
      GInv rows cols st2.1 st2.2.1 ∧ st.2.1 ⊆ st2.2.1 ∧ ∀ c ∈ cells, c ∈ st2.2.1 := by
  intro cells
  induction cells with
  | nil =>
    intro st st2 h hinv _
    obtain rfl : st = st2 := by simpa [List.foldlM] using h
    exact ⟨hinv, Finset.Subset.refl _, by simp⟩
  | cons c cs ih =>
    intro st st2 h hinv hval
    rw [List.foldlM_cons] at h
    cases hstep : gen_cell_step seq fuel st c with
    | none => rw [hstep] at h; simp at h
    | some st1 =>
      rw [hstep] at h
      simp only [Option.bind_eq_bind, Option.some_bind] at h
      obtain ⟨hinv1, hsub1, hc1⟩ := gen_cell_step_ginv hstep hinv (hval c (by simp))
      obtain ⟨hinv2, hsub2, hcs2⟩ := ih st1 st2 h hinv1
        (fun x hx => hval x (List.mem_cons_of_mem _ hx))
      refine ⟨hinv2, hsub1.trans hsub2, ?_⟩
      intro x hx
      rcases List.mem_cons.1 hx with rfl | hx2
      · exact hsub2 hc1
      · exact hcs2 x hx2

theorem mem_cell_list {rows cols : ℕ} {a : Pos} :
    a ∈ cell_list rows cols ↔ validCell rows cols a := by
  obtain ⟨x, y⟩ := a
  simp [cell_list, validCell, List.mem_flatMap, List.mem_map, List.mem_range]

/-- The full generation loop: if it returns, the invariant holds for the final
state and every valid cell has been visited. -/
theorem wilson_loop_ginv {rows cols : ℕ} {seq : ℕ → ℕ} {fuel : ℕ}
    (hrows : 0 < rows) (hcols : 0 < cols)
    {m : CylinderMaze} {inM : Finset Pos} {i : ℕ}
    (h : wilson_loop rows cols seq fuel = some (m, inM, i)) :
    GInv rows cols m inM ∧ ∀ a : Pos, validCell rows cols a → a ∈ inM := by
  unfold wilson_loop at h
  dsimp only at h
  have hscv : seq 0 % cols < cols := Nat.mod_lt _ hcols
  have hempty : mergedWallSet
      (setG (CylinderMaze.new rows cols).grid (2 * 0 + 1)
        (2 * (seq 0 % cols) + 1) Cell.Path) rows cols = ∅ := by
    ext p
    simp only [Finset.not_mem_empty, iff_false]
    intro hmem
    obtain ⟨hp1, hp2, hp3, hp4⟩ := mem_mergedWallSet.1 hmem
    rw [setG_apply] at hp4
    split_ifs at hp4 with he
    · exact hp3 ⟨by omega, by omega⟩
    · simp [CylinderMaze.new] at hp4
  have hinv0 : GInv rows cols
      ⟨setG (CylinderMaze.new rows cols).grid (2 * 0 + 1) (2 * (seq 0 % cols) + 1)
        Cell.Path, rows, cols⟩ {((0 : ℕ), seq 0 % cols)} := by
    refine ⟨rfl, rfl, ?_, ?_, ?_, ?_, ?_, ?_⟩
    · intro a ha
      rw [Finset.mem_singleton.1 ha]
      exact ⟨hrows, hscv⟩
    · intro a ha
      rw [Finset.mem_singleton.1 ha]
      simp [setG]
    · intro a ha b hb
      rw [Finset.mem_singleton.1 ha, Finset.mem_singleton.1 hb]
      exact Relation.ReflTransGen.refl
    · show (mergedWallSet (setG (CylinderMaze.new rows cols).grid (2 * 0 + 1)
        (2 * (seq 0 % cols) + 1) Cell.Path) rows cols).card + 1 = _
      rw [hempty]
      simp
    · intro p hp
      exfalso
      have hp2 : p ∈ mergedWallSet (setG (CylinderMaze.new rows cols).grid (2 * 0 + 1)
          (2 * (seq 0 % cols) + 1) Cell.Path) rows cols := hp
      rw [hempty] at hp2
      simp at hp2
    · intro n
      show setG (CylinderMaze.new rows cols).grid (2 * 0 + 1)
          (2 * (seq 0 % cols) + 1) Cell.Path n 0 = setG (CylinderMaze.new rows cols).grid
          (2 * 0 + 1) (2 * (seq 0 % cols) + 1) Cell.Path n (2 * cols)
      rw [setG_apply, setG_apply, if_neg (by omega), if_neg (by omega)]
      rfl
  obtain ⟨hinv, hsub, hcov⟩ := gen_fold_ginv (cell_list rows cols) _ (m, inM, i) h hinv0
    (fun c hc => mem_cell_list.1 hc)
  exact ⟨hinv, fun a ha => hcov a (mem_cell_list.2 ha)⟩

/-! ### BFS verification -/

/-- All in-range storage positions. -/
def validStor (gr gc : ℕ) : Finset Pos := (Finset.range gr) ×ˢ (Finset.range gc)

theorem mem_validStor {gr gc : ℕ} {p : Pos} :
    p ∈ validStor gr gc ↔ p.1 < gr ∧ p.2 < gc := by
  simp [validStor, Finset.mem_product]

theorem nbr_stor_valid {gr gc : ℕ} {p q : Pos} (hg : 0 < gc)
    (hp : p ∈ validStor gr gc) (hq : q ∈ nbr_stor gr gc p.1 p.2) :
    q ∈ validStor gr gc := by
  rw [mem_validStor] at hp ⊢
  rcases mem_nbr_stor.1 hq with ⟨h1, rfl⟩ | ⟨h1, rfl⟩ | rfl | rfl
  · exact ⟨by omega, hp.2⟩
  · exact ⟨h1, hp.2⟩
  · refine ⟨hp.1, ?_⟩
    dsimp only
    split_ifs <;> omega
  · exact ⟨hp.1, Nat.mod_lt _ hg⟩

/-- Behaviour of one neighbor-inspection pass of the BFS. -/
theorem bfs_push_fold (g : Grid) : ∀ (ns : List Pos) (vis : Finset Pos) (q : List Pos),
    vis ⊆ (ns.foldl (bfs_push g) (vis, q)).1 ∧
    (ns.foldl (bfs_push g) (vis, q)).2.length + vis.card
      = q.length + (ns.foldl (bfs_push g) (vis, q)).1.card ∧
    (ns.foldl (bfs_push g) (vis, q)).1 ⊆ vis ∪ (ns.foldl (bfs_push g) (vis, q)).2.toFinset ∧
    (∀ x ∈ q, x ∈ (ns.foldl (bfs_push g) (vis, q)).2) ∧
    (q.toFinset ⊆ vis →
      (ns.foldl (bfs_push g) (vis, q)).2.toFinset ⊆ (ns.foldl (bfs_push g) (vis, q)).1) ∧
    (∀ x ∈ ns, g x.1 x.2 = Cell.Path → x ∈ (ns.foldl (bfs_push g) (vis, q)).1) ∧
    (ns.foldl (bfs_push g) (vis, q)).1 ⊆ vis ∪ ns.toFinset := by
  intro ns
  induction ns with
  | nil =>
    intro vis q
    refine ⟨Finset.Subset.refl _, rfl, Finset.subset_union_left, fun x hx => hx,
      fun h => h, by simp, Finset.subset_union_left⟩
  | cons n ns ih =>
    intro vis q
    show _ ∧ _
    rw [List.foldl_cons]
    by_cases hc : n ∉ vis ∧ g n.1 n.2 = Cell.Path
    · rw [show bfs_push g (vis, q) n = (insert n vis, q ++ [n]) from by
        unfold bfs_push; rw [if_pos hc]]
      obtain ⟨ia, ib, ic, id, ie, ifx, ig⟩ := ih (insert n vis) (q ++ [n])
      have hnin : n ∈ (ns.foldl (bfs_push g) (insert n vis, q ++ [n])).2 :=
        id n (by simp)
      refine ⟨?_, ?_, ?_, ?_, ?_, ?_, ?_⟩
      · exact (Finset.subset_insert _ _).trans ia
      · rw [Finset.card_insert_of_not_mem hc.1] at ib
        simp only [List.length_append, List.length_singleton] at ib
        omega
      · intro x hx
        rcases Finset.mem_union.1 (ic hx) with hx2 | hx2
        · rcases Finset.mem_insert.1 hx2 with rfl | hx3
          · exact Finset.mem_union_right _ (List.mem_toFinset.2 hnin)
          · exact Finset.mem_union_left _ hx3
        · exact Finset.mem_union_right _ hx2
      · intro x hx
        exact id x (List.mem_append_left _ hx)
      · intro hq
        refine ie ?_
        intro x hx
        rcases List.mem_toFinset.1 hx with hx2
        rcases List.mem_append.1 hx2 with hx3 | hx3
        · exact Finset.mem_insert_of_mem (hq (List.mem_toFinset.2 hx3))
        · rw [List.mem_singleton.1 hx3]
          exact Finset.mem_insert_self _ _
      · intro x hx hpath
        rcases List.mem_cons.1 hx with rfl | hx2
        · exact ia (Finset.mem_insert_self _ _)
        · exact ifx x hx2 hpath
      · intro x hx
        rcases Finset.mem_union.1 (ig hx) with hx2 | hx2
        · rcases Finset.mem_insert.1 hx2 with rfl | hx3
          · exact Finset.mem_union_right _ (by simp)
          · exact Finset.mem_union_left _ hx3
        · exact Finset.mem_union_right _ (by
            rcases List.mem_toFinset.1 hx2 with hx3
            exact List.mem_toFinset.2 (List.mem_cons_of_mem _ hx3))
    · rw [show bfs_push g (vis, q) n = (vis, q) from by
        unfold bfs_push; rw [if_neg hc]]
      obtain ⟨ia, ib, ic, id, ie, ifx, ig⟩ := ih vis q
      refine ⟨ia, ib, ic, id, ie, ?_, ?_⟩
      · intro x hx hpath
        rcases List.mem_cons.1 hx with rfl | hx2
        · have hxin : x ∈ vis := by
            by_contra hxn
            exact hc ⟨hxn, hpath⟩
          exact ia hxin
        · exact ifx x hx2 hpath
      · intro x hx
        rcases Finset.mem_union.1 (ig hx) with hx2 | hx2
        · exact Finset.mem_union_left _ hx2
        · exact Finset.mem_union_right _ (by
            rcases List.mem_toFinset.1 hx2 with hx3
            exact List.mem_toFinset.2 (List.mem_cons_of_mem _ hx3))

/-- The fuel `can_solve` supplies never runs out: the BFS always answers. -/
theorem bfs_fuel_enough {g : Grid} {gr gc : ℕ} {ep : Pos} (hg : 0 < gc) :
    ∀ (fuel : ℕ) (q : List Pos) (vis : Finset Pos),
      q.toFinset ⊆ vis → vis ⊆ validStor gr gc →
      q.length + (validStor gr gc).card ≤ fuel + vis.card →
      (bfs g gr gc ep fuel q vis).isSome := by
  intro fuel
  induction fuel with
  | zero =>
    intro q vis hqv hvv hf
    cases q with
    | nil => simp [bfs]
    | cons p rest =>
      exfalso
      have hcard := Finset.card_le_card hvv
      simp only [List.length_cons, Nat.zero_add] at hf
      omega
  | succ fuel ih =>
    intro q vis hqv hvv hf
    cases q with
    | nil => simp [bfs]
    | cons p rest =>
      show (bfs g gr gc ep (fuel + 1) (p :: rest) vis).isSome
      rw [bfs]
      by_cases hp : p = ep
      · rw [if_pos hp]; simp
      · rw [if_neg hp]
        dsimp only
        obtain ⟨ia, ib, ic, id, ie, ifx, ig⟩ :=
          bfs_push_fold g (nbr_stor gr gc p.1 p.2) vis rest
        have hrest : rest.toFinset ⊆ vis := by
          intro x hx
          exact hqv (List.mem_toFinset.2 (List.mem_cons_of_mem _ (List.mem_toFinset.1 hx)))
        have hpv : p ∈ validStor gr gc := hvv (hqv (by simp))
        have hnsv : ∀ x ∈ nbr_stor gr gc p.1 p.2, x ∈ validStor gr gc :=
          fun x hx => nbr_stor_valid hg hpv hx
        apply ih
        · exact ie hrest
        · intro x hx
          rcases Finset.mem_union.1 (ig hx) with hx2 | hx2
          · exact hvv hx2
          · exact hnsv x (List.mem_toFinset.1 hx2)
        · simp only [List.length_cons] at hf
          omega

/-- If the visited set is closed under `Path` steps, reachability stays inside it. -/
theorem closed_no_escape {g : Grid} {gr gc : ℕ} {vis : Finset Pos}
    (hcl : ∀ p ∈ vis, ∀ x ∈ nbr_stor gr gc p.1 p.2, g x.1 x.2 = Cell.Path → x ∈ vis)
    {s t : Pos} (hs : s ∈ vis) (hr : Reach g gr gc s t) : t ∈ vis := by
  induction hr with
  | refl => exact hs
  | tail _ hstep ih2 => exact hcl _ ih2 _ hstep.1 hstep.2

/-- Completeness: when the BFS answers `false`, no visited position reaches the
target through `Path` positions. -/
theorem bfs_false_no_reach {g : Grid} {gr gc : ℕ} {ep : Pos} :
    ∀ (fuel : ℕ) (q : List Pos) (vis : Finset Pos),
      bfs g gr gc ep fuel q vis = some false →
      q.toFinset ⊆ vis →
      ep ∉ vis \ q.toFinset →
      (∀ p ∈ vis, p ∉ q.toFinset → ∀ x ∈ nbr_stor gr gc p.1 p.2,
        g x.1 x.2 = Cell.Path → x ∈ vis) →
      ∀ s ∈ vis, ¬ Reach g gr gc s ep := by
  intro fuel
  induction fuel with
  | zero =>
    intro q vis h hqv hep hcl s hs hr
    cases q with
    | nil =>
      have hepv : ep ∈ vis := closed_no_escape (by simpa using hcl) hs hr
      exact hep (by simpa using hepv)
    | cons p rest => simp [bfs] at h
  | succ fuel ih =>
    intro q vis h hqv hep hcl
    cases q with
    | nil =>
      intro s hs hr
      have hepv : ep ∈ vis := closed_no_escape (by simpa using hcl) hs hr
      exact hep (by simpa using hepv)
    | cons p rest =>
      rw [bfs] at h
      by_cases hp : p = ep
      · rw [if_pos hp] at h
        simp at h
      · rw [if_neg hp] at h
        dsimp only at h
        obtain ⟨ia, ib, ic, id, ie, ifx, ig⟩ :=
          bfs_push_fold g (nbr_stor gr gc p.1 p.2) vis rest
        have hrest : rest.toFinset ⊆ vis := by
          intro x hx
          exact hqv (List.mem_toFinset.2 (List.mem_cons_of_mem _ (List.mem_toFinset.1 hx)))
        have hres := ih _ _ h (ie hrest) ?_ ?_
        · intro s hs
          exact hres s (ia hs)
        · intro hmem
          rcases Finset.mem_sdiff.1 hmem with ⟨h1, h2⟩
          rcases Finset.mem_union.1 (ic h1) with h3 | h3
          · refine hep (Finset.mem_sdiff.2 ⟨h3, ?_⟩)
            intro h4
            rcases List.mem_cons.1 (List.mem_toFinset.1 h4) with h5 | h5
            · exact hp h5.symm
            · exact h2 (List.mem_toFinset.2 (id ep h5))
          · exact h2 h3
        · intro p2 hp2 hp2q x hx hpath
          rcases Finset.mem_union.1 (ic hp2) with h3 | h3
          · by_cases hpp : p2 = p
            · subst hpp
              exact ifx x hx hpath
            · have : p2 ∉ (p :: rest).toFinset := by
                intro h4
                rcases List.mem_cons.1 (List.mem_toFinset.1 h4) with h5 | h5
                · exact hpp h5
                · exact hp2q (List.mem_toFinset.2 (id p2 h5))
              exact ia (hcl p2 h3 this x hx hpath)
          · exact absurd h3 hp2q

/-- Soundness of the `can_solve` result via reachability: if the start cell is
in range and its storage position reaches the end's storage position through
`Path` positions, the BFS answers `true`. -/
theorem can_solve_of_reach {m : CylinderMaze} {s e : Pos}
    (hs : validCell m.rows m.cols s)
    (hr : Reach m.grid (2 * m.rows + 1) (2 * m.cols + 1)
      (2 * s.1 + 1, 2 * s.2 + 1) (2 * e.1 + 1, 2 * e.2 + 1)) :
    can_solve m s e = true := by
  unfold can_solve cell_to_grid
  dsimp only
  have hg : 0 < 2 * m.cols + 1 := by omega
  have hsv : ((2 * s.1 + 1, 2 * s.2 + 1) : Pos) ∈ validStor (2 * m.rows + 1) (2 * m.cols + 1) := by
    rw [mem_validStor]
    exact ⟨by have := hs.1; omega, by have := hs.2; omega⟩
  have hVcard : (validStor (2 * m.rows + 1) (2 * m.cols + 1)).card
      = (2 * m.rows + 1) * (2 * m.cols + 1) := by
    simp [validStor]
  have hsome := @bfs_fuel_enough m.grid (2 * m.rows + 1) (2 * m.cols + 1)
    (2 * e.1 + 1, 2 * e.2 + 1) hg
    ((2 * m.rows + 1) * (2 * m.cols + 1) + 1)
    [(2 * s.1 + 1, 2 * s.2 + 1)] {(2 * s.1 + 1, 2 * s.2 + 1)}
    (by simp) (by simpa using hsv)
    (by rw [hVcard]; simp only [List.length_singleton, Finset.card_singleton]; omega)
  cases hb : bfs m.grid (2 * m.rows + 1) (2 * m.cols + 1) (2 * e.1 + 1, 2 * e.2 + 1)
      ((2 * m.rows + 1) * (2 * m.cols + 1) + 1)
      [(2 * s.1 + 1, 2 * s.2 + 1)] {(2 * s.1 + 1, 2 * s.2 + 1)} with
  | none => rw [hb] at hsome; simp at hsome
  | some b =>
    cases b with
    | false =>
      exfalso
      refine bfs_false_no_reach _ _ _ hb (by simp) (by simp) ?_
        (2 * s.1 + 1, 2 * s.2 + 1) (by simp) hr
      intro p hp hpq
      exact absurd (by simpa using hp) (by simpa using hpq)
    | true =>
      simp [hb]

/-! ### Unpacking a successful generation run -/

theorem generate_wilson_some {rows cols : ℕ} {seq : ℕ → ℕ} {fuel : ℕ}
    {m : CylinderMaze} {s e : Pos}
    (h : generate_wilson rows cols seq fuel = some (m, s, e)) :
    ∃ inM i, wilson_loop rows cols seq fuel = some (m, inM, i) ∧
      s = (0, seq 0 % cols) ∧ e = (rows - 1, seq i % cols) := by
  unfold generate_wilson at h
  cases hw : wilson_loop rows cols seq fuel with
  | none => rw [hw] at h; simp at h
  | some st =>
    rw [hw] at h
    obtain ⟨m2, inM, i⟩ := st
    simp only [Option.some.injEq, Prod.mk.injEq] at h
    obtain ⟨rfl, hs, he⟩ := h
    exact ⟨inM, i, rfl, hs.symm, he.symm⟩

/-- Helper for C10: the grid of a carve chain changes positions only to `Path`. -/
theorem carve_chain_or : ∀ (rest : List Pos) (prev : Pos) (m : CylinderMaze) (r c : ℕ),
    (carve_chain m prev rest).grid r c = m.grid r c ∨
      (carve_chain m prev rest).grid r c = Cell.Path := by
  intro rest
  induction rest with
  | nil => intro prev m r c; exact Or.inl rfl
  | cons b l ih =>
    intro prev m r c
    have hstep : (carve_chain m prev (b :: l)).grid r c
        = (carve_chain (carve_passage m prev b) b l).grid r c := rfl
    rw [hstep]
    rcases ih b (carve_passage m prev b) r c with h | h
    · rw [h, carve_grid_apply]
      split_ifs
      · exact Or.inr rfl
      · exact Or.inl rfl
    · exact Or.inr h

/-! ### Claim theorems -/

/-- C9: `can_solve(a, a)` is `true` for every in-range logical cell `a` of any
maze (generated or not, including the all-`Wall` grid of `CylinderMaze.new`):
the BFS enqueues the start storage position without checking its marker and
tests equality with the end position before expanding neighbors. -/
theorem C9_self_solvable (m : CylinderMaze) (a : Pos)
    (hrows : 1 ≤ m.rows) (hcols : 1 ≤ m.cols)
    (ha1 : a.1 < m.rows) (ha2 : a.2 < m.cols) :
    can_solve m a a = true := by
  unfold can_solve cell_to_grid
  dsimp only
  rw [bfs, if_pos rfl]
  rfl

/-- C9 witness: on the freshly constructed all-`Wall` 1×1 maze, whose only
cell marker is `Wall`, `can_solve((0,0),(0,0))` is `true`. -/
theorem C9_witness :
    (CylinderMaze.new 1 1).grid 1 1 = Cell.Wall ∧
      can_solve (CylinderMaze.new 1 1) (0, 0) (0, 0) = true :=
  ⟨rfl, C9_self_solvable (CylinderMaze.new 1 1) (0, 0)
    (by decide) (by decide) (by decide) (by decide)⟩

/-- C8: determinism under fixed randomness — two runs of generation on the
same dimensions driven by pointwise-identical random streams produce identical
results (grid, start and end). -/
theorem C8_determinism (rows cols fuel : ℕ) (seq1 seq2 : ℕ → ℕ)
    (h : ∀ i, seq1 i = seq2 i) :
    generate_wilson rows cols seq1 fuel = generate_wilson rows cols seq2 fuel := by
  have he : seq1 = seq2 := funext h
  rw [he]

def wseqA : ℕ → ℕ := fun _ => 0

def wseqB : ℕ → ℕ := fun i => i - i

/-- C8 witness: two syntactically different but pointwise-equal streams give
the same generated maze. -/
theorem C8_witness :
    generate_wilson 1 2 wseqA 9 = generate_wilson 1 2 wseqB 9 :=
  C8_determinism 1 2 9 wseqA wseqB (fun i => by simp [wseqA, wseqB])

/-- C4: `carve_passage` between Topology-adjacent cells marks both endpoint
cell positions `Path`; for a vertical or non-wrapping horizontal move it marks
the single wall at the arithmetic midpoint of the two storage coordinates,
and for a wrapping horizontal move it marks both boundary wall positions —
storage columns `0` and `2*cols` — of that storage row. -/
theorem C4_carve_contract (m : CylinderMaze) (f t : Pos)
    (hf : validCell m.rows m.cols f) (hadj : t ∈ get_neighbors m f.1 f.2) :
    (carve_passage m f t).grid (2 * f.1 + 1) (2 * f.2 + 1) = Cell.Path ∧
    (carve_passage m f t).grid (2 * t.1 + 1) (2 * t.2 + 1) = Cell.Path ∧
    (f.1 = t.1 → ((f.2 = 0 ∧ t.2 = m.cols - 1) ∨ (f.2 = m.cols - 1 ∧ t.2 = 0)) →
      (carve_passage m f t).grid (2 * f.1 + 1) 0 = Cell.Path ∧
      (carve_passage m f t).grid (2 * f.1 + 1) (2 * m.cols) = Cell.Path) ∧
    (f.1 = t.1 → ¬ ((f.2 = 0 ∧ t.2 = m.cols - 1) ∨ (f.2 = m.cols - 1 ∧ t.2 = 0)) →
      (carve_passage m f t).grid (2 * f.1 + 1) (((2 * f.2 + 1) + (2 * t.2 + 1)) / 2)
        = Cell.Path) ∧
    (¬ f.1 = t.1 →
      (carve_passage m f t).grid (((2 * f.1 + 1) + (2 * t.1 + 1)) / 2) (2 * f.2 + 1)
        = Cell.Path) := by
  refine ⟨carve_marks_from m f t, carve_marks_to m f t, ?_, ?_, ?_⟩
  · intro h1 h2
    constructor
    · apply carve_writes_mem
      unfold carve_writes
      rw [if_pos h1, if_pos h2]
      simp
    · apply carve_writes_mem
      unfold carve_writes
      rw [if_pos h1, if_pos h2]
      have h3 : 2 * m.cols + 1 - 1 = 2 * m.cols := by omega
      simp [h3]
  · intro h1 h2
    apply carve_writes_mem
    unfold carve_writes
    rw [if_pos h1, if_neg h2]
    simp
  · intro h1
    apply carve_writes_mem
    unfold carve_writes
    rw [if_neg h1]
    simp

/-- C4 witness: a concrete wrapping carve on a fresh 2×3 maze. -/
theorem C4_witness :
    validCell (CylinderMaze.new 2 3).rows (CylinderMaze.new 2 3).cols ((0, 0) : Pos) ∧
    ((0, 2) : Pos) ∈ get_neighbors (CylinderMaze.new 2 3) 0 0 ∧
    ((carve_passage (CylinderMaze.new 2 3) (0, 0) (0, 2)).grid 1 1 = Cell.Path ∧
     (carve_passage (CylinderMaze.new 2 3) (0, 0) (0, 2)).grid 1 5 = Cell.Path ∧
     ((0 : ℕ) = 0 → (((0 : ℕ) = 0 ∧ (2 : ℕ) = (CylinderMaze.new 2 3).cols - 1) ∨
        ((0 : ℕ) = (CylinderMaze.new 2 3).cols - 1 ∧ (2 : ℕ) = 0)) →
       (carve_passage (CylinderMaze.new 2 3) (0, 0) (0, 2)).grid 1 0 = Cell.Path ∧
       (carve_passage (CylinderMaze.new 2 3) (0, 0)
         (0, 2)).grid 1 (2 * (CylinderMaze.new 2 3).cols) = Cell.Path) ∧
     ((0 : ℕ) = 0 → ¬ (((0 : ℕ) = 0 ∧ (2 : ℕ) = (CylinderMaze.new 2 3).cols - 1) ∨
        ((0 : ℕ) = (CylinderMaze.new 2 3).cols - 1 ∧ (2 : ℕ) = 0)) →
       (carve_passage (CylinderMaze.new 2 3) (0, 0)
         (0, 2)).grid 1 ((2 * 0 + 1 + (2 * 2 + 1)) / 2) = Cell.Path) ∧
     (¬ (0 : ℕ) = 0 →
       (carve_passage (CylinderMaze.new 2 3) (0, 0)
         (0, 2)).grid ((2 * 0 + 1 + (2 * 0 + 1)) / 2) (2 * 0 + 1) = Cell.Path)) :=
  ⟨by decide, by decide,
    C4_carve_contract (CylinderMaze.new 2 3) (0, 0) (0, 2) (by decide) (by decide)⟩

/-! ### Concrete terminating runs used by witnesses and counterexamples -/

def runA : Option (CylinderMaze × Pos × Pos) := generate_wilson 1 2 wseqA 9

/-- The maze of a terminating 1×2 run driven by the constant-0 stream. -/
def mazeA : CylinderMaze :=
  match runA with
  | some (m, _, _) => m
  | none => CylinderMaze.new 1 2

def runB : Option (CylinderMaze × Pos × Pos) := generate_wilson 1 3 wseqA 9

/-- The maze of a terminating 1×3 run driven by the constant-0 stream. -/
def mazeB : CylinderMaze :=
  match runB with
  | some (m, _, _) => m
  | none => CylinderMaze.new 1 3

def wseq6 : ℕ → ℕ := fun i => if i < 3 then 0 else 1

def runC : Option (CylinderMaze × Finset Pos × ℕ) := wilson_loop 1 3 wseq6 9

def mazeC : CylinderMaze :=
  match runC with
  | some (m, _, _) => m
  | none => CylinderMaze.new 1 3

def inMC : Finset Pos :=
  match runC with
  | some (_, s, _) => s
  | none => ∅

/-- Claim C3's raw count: `Path`-marked wall positions over the full storage
range, the duplicate seam column `2*cols` included. -/
def rawWallCount (m : CylinderMaze) : ℕ :=
  (((Finset.range (2 * m.rows + 1)) ×ˢ (Finset.range (2 * m.cols + 1))).filter
    (fun p => ¬ (p.1 % 2 = 1 ∧ p.2 % 2 = 1) ∧ m.grid p.1 p.2 = Cell.Path)).card

/-- The seam-merged count: `Path`-marked wall positions with storage column
below `2*cols`, so each row's seam pair counts once. -/
def mergedWallCount (m : CylinderMaze) : ℕ :=
  (mergedWallSet m.grid m.rows m.cols).card

/-- C1: universal connectivity — on any maze produced by a terminating run of
`generate_wilson` with `rows, cols ≥ 1`, `can_solve` answers `true` for every
ordered pair of in-range logical cells, not only the returned start/end. -/
theorem C1_universal_connectivity {rows cols fuel : ℕ} {seq : ℕ → ℕ}
    {m : CylinderMaze} {s e : Pos}
    (hrows : 1 ≤ rows) (hcols : 1 ≤ cols)
    (h : generate_wilson rows cols seq fuel = some (m, s, e))
    (a b : Pos) (ha1 : a.1 < rows) (ha2 : a.2 < cols)
    (hb1 : b.1 < rows) (hb2 : b.2 < cols) :
    can_solve m a b = true := by
  obtain ⟨inM, i, hw, -, -⟩ := generate_wilson_some h
  obtain ⟨hinv, hcov⟩ := wilson_loop_ginv hrows hcols hw
  have hreach := hinv.conn a (hcov a ⟨ha1, ha2⟩) b (hcov b ⟨hb1, hb2⟩)
  apply can_solve_of_reach
  · rw [hinv.dimr, hinv.dimc]
    exact ⟨ha1, ha2⟩
  · rw [hinv.dimr, hinv.dimc]
    exact hreach

/-- C1 witness: a concrete terminating 1×2 run, solvable between the two
cells (which are neither the returned start nor end pair). -/
theorem C1_witness : can_solve mazeA (0, 1) (0, 0) = true :=
  C1_universal_connectivity (by decide) (by decide)
    (rfl : generate_wilson 1 2 wseqA 9 = some (mazeA, (0, 0), (0, 0)))
    (0, 1) (0, 0) (by decide) (by decide) (by decide) (by decide)

/-- C2: spanning-tree completeness — after a terminating run every logical
cell's own storage marker, at position `(2*row+1, 2*col+1)`, is `Path`. -/
theorem C2_spanning_completeness {rows cols fuel : ℕ} {seq : ℕ → ℕ}
    {m : CylinderMaze} {s e : Pos}
    (hrows : 1 ≤ rows) (hcols : 1 ≤ cols)
    (h : generate_wilson rows cols seq fuel = some (m, s, e))
    (row col : ℕ) (hr : row < rows) (hc : col < cols) :
    m.grid (2 * row + 1) (2 * col + 1) = Cell.Path := by
  obtain ⟨inM, i, hw, -, -⟩ := generate_wilson_some h
  obtain ⟨hinv, hcov⟩ := wilson_loop_ginv hrows hcols hw
  exact hinv.marks (row, col) (hcov (row, col) ⟨hr, hc⟩)

/-- C2 witness: cell `(0, 1)` of the concrete 1×2 run is marked `Path`. -/
theorem C2_witness : mazeA.grid 1 3 = Cell.Path :=
  C2_spanning_completeness (by decide) (by decide)
    (rfl : generate_wilson 1 2 wseqA 9 = some (mazeA, (0, 0), (0, 0)))
    0 1 (by decide) (by decide)

/-- C3 counterexample: on a terminating 1×2 run the single spanning-tree edge
is the wrap edge, whose carve writes both seam wall positions; the number of
`Path` wall positions is 2, not `1 * 2 - 1 = 1` as the claim states. -/
theorem C3_cex :
    generate_wilson 1 2 wseqA 9 = some (mazeA, (0, 0), (0, 0)) ∧
    rawWallCount mazeA = 2 ∧ (1 * 2 - 1 : ℕ) = 1 :=
  ⟨rfl, by decide, rfl⟩

/-- C3 amended: counting each row's seam pair (storage columns `0` and
`2*cols`) as a single carved wall — equivalently, counting `Path` wall
positions with storage column below `2*cols` — the carved wall count of a
terminating run is exactly `rows * cols - 1`. -/
theorem C3_edge_count {rows cols fuel : ℕ} {seq : ℕ → ℕ}
    {m : CylinderMaze} {s e : Pos}
    (hrows : 1 ≤ rows) (hcols : 1 ≤ cols)
    (h : generate_wilson rows cols seq fuel = some (m, s, e)) :
    mergedWallCount m = rows * cols - 1 := by
  obtain ⟨inM, i, hw, -, -⟩ := generate_wilson_some h
  obtain ⟨hinv, hcov⟩ := wilson_loop_ginv hrows hcols hw
  have hinM : inM = (Finset.range rows) ×ˢ (Finset.range cols) := by
    ext a
    rw [Finset.mem_product, Finset.mem_range, Finset.mem_range]
    constructor
    · intro ha
      exact hinv.vld a ha
    · intro ha
      exact hcov a ⟨ha.1, ha.2⟩
  have hcard : inM.card = rows * cols := by
    rw [hinM, Finset.card_product, Finset.card_range, Finset.card_range]
  have hwc := hinv.wcount
  unfold mergedWallCount
  rw [hinv.dimr, hinv.dimc]
  omega

/-- C3 amended witness: the concrete 1×2 run has merged wall count `1`. -/
theorem C3_edge_count_witness : mergedWallCount mazeA = 1 * 2 - 1 :=
  C3_edge_count (by decide) (by decide)
    (rfl : generate_wilson 1 2 wseqA 9 = some (mazeA, (0, 0), (0, 0)))

/-- C5 counterexample: a terminating 1×3 run whose spanning tree carves no
wrap edge — the two boundary wall positions of row 0 (storage positions
`(1, 0)` and `(1, 6)`) both remain `Wall`, so columns `0` and `cols-1` of that
row are not joined by a carved wall pair, contrary to the claim's assertion
for every row. -/
theorem C5_cex :
    generate_wilson 1 3 wseqA 9 = some (mazeB, (0, 0), (0, 0)) ∧
    (0 : ℕ) < 1 ∧ mazeB.grid 1 0 = Cell.Wall ∧ mazeB.grid 1 6 = Cell.Wall :=
  ⟨rfl, by decide, by decide, by decide⟩

/-- C5 amended: in any maze from a terminating run, each storage row's two
boundary wall positions (columns `0` and `2*cols`) always agree — the wrap
pair is carved together or not at all — and every `Path` wall position joins
a Topology-adjacent pair of in-range cells, so no other pair of non-adjacent
columns is directly connected. -/
theorem C5_wrap_adjacency {rows cols fuel : ℕ} {seq : ℕ → ℕ}
    {m : CylinderMaze} {s e : Pos}
    (hrows : 1 ≤ rows) (hcols : 1 ≤ cols)
    (h : generate_wilson rows cols seq fuel = some (m, s, e)) :
    (∀ n, m.grid n 0 = m.grid n (2 * cols)) ∧
    (∀ p ∈ mergedWallSet m.grid rows cols, ∃ u v, u ≠ v ∧ AdjD rows cols u v ∧
      validCell rows cols u ∧ validCell rows cols v ∧ wallPos cols u v = p) := by
  obtain ⟨inM, i, hw, -, -⟩ := generate_wilson_some h
  obtain ⟨hinv, hcov⟩ := wilson_loop_ginv hrows hcols hw
  refine ⟨hinv.seam, ?_⟩
  intro p hp
  obtain ⟨u, v, hu, hv, hne, hadj, hwp⟩ := hinv.just p hp
  exact ⟨u, v, hne, hadj, hinv.vld u hu, hinv.vld v hv, hwp⟩

/-- C5 amended witness: row 0's seam halves agree on the concrete 1×3 run. -/
theorem C5_wrap_adjacency_witness : mazeB.grid 1 0 = mazeB.grid 1 (2 * 3) :=
  (C5_wrap_adjacency (by decide) (by decide)
    (rfl : generate_wilson 1 3 wseqA 9 = some (mazeB, (0, 0), (0, 0)))).1 1

/-- C6 counterexample: a terminating 1×3 run whose generation loop ends with
the random cursor at 3.  Had the start column been drawn from the stream after
the loop, it would be `wseq6 3 % 3 = 1`; the run actually returns start
`(0, 0)` — the seed drawn at cursor 0 before the loop. -/
theorem C6_cex :
    wilson_loop 1 3 wseq6 9 = some (mazeC, inMC, 3) ∧
    generate_wilson 1 3 wseq6 9 = some (mazeC, (0, 0), (0, 1)) ∧
    wseq6 3 % 3 = 1 ∧ (0 : ℕ) ≠ 1 :=
  ⟨rfl, rfl, rfl, by decide⟩

/-- C6 amended: the returned start is the generation seed `(0, seq 0 % cols)`
drawn from the stream before the loop; only the end column is drawn after the
loop finishes, at the post-loop cursor. -/
theorem C6_start_is_seed {rows cols fuel : ℕ} {seq : ℕ → ℕ}
    {m : CylinderMaze} {s e : Pos}
    (h : generate_wilson rows cols seq fuel = some (m, s, e)) :
    s = (0, seq 0 % cols) ∧
    ∃ inM i, wilson_loop rows cols seq fuel = some (m, inM, i) ∧
      e = (rows - 1, seq i % cols) := by
  obtain ⟨inM, i, hw, hs, he⟩ := generate_wilson_some h
  exact ⟨hs, inM, i, hw, he⟩

/-- C6 amended witness: the concrete run's start is its seed. -/
theorem C6_start_is_seed_witness : ((0, 0) : Pos) = (0, wseq6 0 % 3) :=
  (C6_start_is_seed
    (rfl : generate_wilson 1 3 wseq6 9 = some (mazeC, (0, 0), (0, 1)))).1

/-- C7 counterexample: on a 1×1 maze the neighbor set of the only cell is the
singleton of the cell itself, so its cardinality is 1, below the claimed
lower bound of 2. -/
theorem C7_cex :
    (get_neighbors (CylinderMaze.new 1 1) 0 0).toFinset.card = 1 ∧
    ¬ 2 ≤ (get_neighbors (CylinderMaze.new 1 1) 0 0).toFinset.card := by
  decide

/-- C7 amended: for in-range `(row, col)` with `rows, cols ≥ 1`, the neighbor
list, as a set, is exactly the claimed set — up-neighbor iff `row > 0`,
down-neighbor iff `row < rows - 1`, and the cyclically wrapped left and right
neighbors — and contains between 1 and 4 coordinates, with at least 2 whenever
`rows ≥ 2` or `cols ≥ 3`. -/
theorem C7_neighbors {rows cols : ℕ} (m : CylinderMaze)
    (hmr : m.rows = rows) (hmc : m.cols = cols)
    (hrows : 1 ≤ rows) (hcols : 1 ≤ cols)
    (row col : ℕ) (hr : row < rows) (hc : col < cols) :
    (get_neighbors m row col).toFinset =
      ((if 0 < row then {((row - 1, col) : Pos)} else ∅) ∪
        (if row < rows - 1 then {((row + 1, col) : Pos)} else ∅) ∪
        {((row, (col + cols - 1) % cols) : Pos)} ∪ {((row, (col + 1) % cols) : Pos)}) ∧
    1 ≤ (get_neighbors m row col).toFinset.card ∧
    (get_neighbors m row col).toFinset.card ≤ 4 ∧
    ((2 ≤ rows ∨ 3 ≤ cols) → 2 ≤ (get_neighbors m row col).toFinset.card) := by
  subst hmr
  subst hmc
  have hleft : (col + m.cols - 1) % m.cols = if col = 0 then m.cols - 1 else col - 1 := by
    by_cases h : col = 0
    · rw [if_pos h, h]
      simp only [Nat.zero_add]
      exact Nat.mod_eq_of_lt (by omega)
    · rw [if_neg h]
      have h2 : col + m.cols - 1 = (col - 1) + m.cols := by omega
      rw [h2, Nat.add_mod_right]
      exact Nat.mod_eq_of_lt (by omega)
  have hmemL : ((row, if col = 0 then m.cols - 1 else col - 1) : Pos)
      ∈ get_neighbors m row col := by
    unfold get_neighbors
    rw [mem_nbr_list]
    exact Or.inr (Or.inr (Or.inl rfl))
  have hmemR : ((row, (col + 1) % m.cols) : Pos) ∈ get_neighbors m row col := by
    unfold get_neighbors
    rw [mem_nbr_list]
    exact Or.inr (Or.inr (Or.inr rfl))
  refine ⟨?_, ?_, ?_, ?_⟩
  · ext x
    rw [List.mem_toFinset]
    show x ∈ nbr_list m.rows m.cols row col ↔ _
    rw [mem_nbr_list]
    simp only [Finset.mem_union, Finset.mem_singleton, hleft]
    constructor
    · rintro (⟨h1, rfl⟩ | ⟨h1, rfl⟩ | rfl | rfl)
      · exact Or.inl (Or.inl (Or.inl (by rw [if_pos h1]; simp)))
      · exact Or.inl (Or.inl (Or.inr (by rw [if_pos h1]; simp)))
      · exact Or.inl (Or.inr rfl)
      · exact Or.inr rfl
    · rintro (((hx | hx) | hx) | hx)
      · split_ifs at hx with h1
        · exact Or.inl ⟨h1, by simpa using hx⟩
        · simp at hx
      · split_ifs at hx with h1
        · exact Or.inr (Or.inl ⟨h1, by simpa using hx⟩)
        · simp at hx
      · exact Or.inr (Or.inr (Or.inl hx))
      · exact Or.inr (Or.inr (Or.inr hx))
  · rw [Nat.one_le_iff_ne_zero, ← Nat.pos_iff_ne_zero, Finset.card_pos]
    exact ⟨_, List.mem_toFinset.2 hmemR⟩
  · refine (List.toFinset_card_le _).trans ?_
    show (nbr_list m.rows m.cols row col).length ≤ 4
    unfold nbr_list
    split_ifs <;> simp
  · intro hor
    rw [show (2 : ℕ) ≤ (get_neighbors m row col).toFinset.card ↔
      1 < (get_neighbors m row col).toFinset.card from Iff.rfl]
    rw [Finset.one_lt_card]
    rcases hor with h2r | h3c
    · by_cases h0 : 0 < row
      · refine ⟨(row - 1, col), ?_, (row, (col + 1) % m.cols),
          List.mem_toFinset.2 hmemR, ?_⟩
        · refine List.mem_toFinset.2 ?_
          unfold get_neighbors
          rw [mem_nbr_list]
          exact Or.inl ⟨h0, rfl⟩
        · intro he
          have := congrArg Prod.fst he
          simp only at this
          omega
      · refine ⟨(row + 1, col), ?_, (row, (col + 1) % m.cols),
          List.mem_toFinset.2 hmemR, ?_⟩
        · refine List.mem_toFinset.2 ?_
          unfold get_neighbors
          rw [mem_nbr_list]
          exact Or.inr (Or.inl ⟨by omega, rfl⟩)
        · intro he
          have := congrArg Prod.fst he
          simp only at this
          omega
    · refine ⟨(row, if col = 0 then m.cols - 1 else col - 1),
        List.mem_toFinset.2 hmemL, (row, (col + 1) % m.cols),
        List.mem_toFinset.2 hmemR, ?_⟩
      intro he
      have hsnd := congrArg Prod.snd he
      simp only at hsnd
      by_cases h0 : col = 0
      · rw [if_pos h0] at hsnd
        rw [h0] at hsnd
        rw [Nat.mod_eq_of_lt (by omega)] at hsnd
        omega
      · rw [if_neg h0] at hsnd
        by_cases hlast : col + 1 = m.cols
        · rw [hlast, Nat.mod_self] at hsnd
          omega
        · rw [Nat.mod_eq_of_lt (by omega)] at hsnd
          omega

/-- C7 amended witness: a 2×3 instance. -/
theorem C7_neighbors_witness :
    (get_neighbors (CylinderMaze.new 2 3) 0 0).toFinset =
      ((if 0 < (0 : ℕ) then {(((0 : ℕ) - 1, (0 : ℕ)) : Pos)} else ∅) ∪
        (if (0 : ℕ) < 2 - 1 then {(((0 : ℕ) + 1, (0 : ℕ)) : Pos)} else ∅) ∪
        {(((0 : ℕ), (0 + 3 - 1) % 3) : Pos)} ∪ {(((0 : ℕ), (0 + 1) % 3) : Pos)}) ∧
    1 ≤ (get_neighbors (CylinderMaze.new 2 3) 0 0).toFinset.card ∧
    (get_neighbors (CylinderMaze.new 2 3) 0 0).toFinset.card ≤ 4 ∧
    ((2 ≤ 2 ∨ 3 ≤ 3) → 2 ≤ (get_neighbors (CylinderMaze.new 2 3) 0 0).toFinset.card) :=
  C7_neighbors (CylinderMaze.new 2 3) rfl rfl (by decide) (by decide) 0 0
    (by decide) (by decide)

/-! ### C10 helpers and theorem -/

theorem add_path_fst_or (m : CylinderMaze) (inM : Finset Pos) (prev : Option Pos)
    (path : List Pos) (r c : ℕ) :
    (add_path m inM prev path).1.grid r c = m.grid r c ∨
      (add_path m inM prev path).1.grid r c = Cell.Path := by
  cases prev with
  | none =>
    cases path with
    | nil => exact Or.inl rfl
    | cons c2 rest =>
      rw [add_path_none_eq]
      exact carve_chain_or rest c2 m r c
  | some p =>
    rw [add_path_some_eq]
    exact carve_chain_or path p m r c

theorem add_path_fst_mono (m : CylinderMaze) (inM : Finset Pos) (prev : Option Pos)
    (path : List Pos) (r c : ℕ) (h : m.grid r c = Cell.Path) :
    (add_path m inM prev path).1.grid r c = Cell.Path := by
  cases prev with
  | none =>
    cases path with
    | nil => exact h
    | cons c2 rest =>
      rw [add_path_none_eq]
      exact carve_chain_mono rest c2 m r c h
  | some p =>
    rw [add_path_some_eq]
    exact carve_chain_mono path p m r c h

theorem gen_cell_step_fst {seq : ℕ → ℕ} {fuel : ℕ}
    {st st2 : CylinderMaze × Finset Pos × ℕ} {cell : Pos}
    (h : gen_cell_step seq fuel st cell = some st2) :
    st2.1 = st.1 ∨ ∃ path, st2.1 = (add_path st.1 st.2.1 none path).1 := by
  unfold gen_cell_step at h
  by_cases hin : cell ∈ st.2.1
  · rw [if_pos hin] at h
    obtain rfl : st = st2 := by simpa using h
    exact Or.inl rfl
  · rw [if_neg hin] at h
    cases hw : loop_walk st.1 seq st.2.1 fuel [cell] cell st.2.2 with
    | none => rw [hw] at h; simp at h
    | some out =>
      rw [hw] at h
      simp only [Option.some.injEq] at h
      rw [← h]
      exact Or.inr ⟨out.1, rfl⟩

/-- C10: the grid only ever gains `Path` markers — `carve_passage`, the
`add_path` loop and each generation step either leave a storage position
unchanged or set it to `Path`, and never revert a `Path` back to `Wall`;
untouched positions retain their previous marker. -/
theorem C10_only_path_writes (m : CylinderMaze) (f t : Pos) (inM : Finset Pos)
    (prev : Option Pos) (path : List Pos) (seq : ℕ → ℕ) (fuel : ℕ)
    (st st2 : CylinderMaze × Finset Pos × ℕ) (cell : Pos) (r c : ℕ) :
    ((carve_passage m f t).grid r c = m.grid r c ∨
      (carve_passage m f t).grid r c = Cell.Path) ∧
    (m.grid r c = Cell.Path → (carve_passage m f t).grid r c = Cell.Path) ∧
    ((add_path m inM prev path).1.grid r c = m.grid r c ∨
      (add_path m inM prev path).1.grid r c = Cell.Path) ∧
    (m.grid r c = Cell.Path → (add_path m inM prev path).1.grid r c = Cell.Path) ∧
    (gen_cell_step seq fuel st cell = some st2 →
      (st2.1.grid r c = st.1.grid r c ∨ st2.1.grid r c = Cell.Path) ∧
      (st.1.grid r c = Cell.Path → st2.1.grid r c = Cell.Path)) := by
  refine ⟨?_, carve_mono m f t r c, add_path_fst_or m inM prev path r c,
    add_path_fst_mono m inM prev path r c, ?_⟩
  · rw [carve_grid_apply]
    split_ifs
    · exact Or.inr rfl
    · exact Or.inl rfl
  · intro h
    rcases gen_cell_step_fst h with h2 | ⟨path2, h2⟩
    · rw [h2]
      exact ⟨Or.inl rfl, fun hp => hp⟩
    · rw [h2]
      exact ⟨add_path_fst_or _ _ _ _ r c, add_path_fst_mono _ _ _ _ r c⟩

/-- C10 witness: a concrete instance of the write discipline. -/
theorem C10_witness :
    (carve_passage (CylinderMaze.new 1 2) (0, 0) (0, 1)).grid 1 1
        = (CylinderMaze.new 1 2).grid 1 1 ∨
      (carve_passage (CylinderMaze.new 1 2) (0, 0) (0, 1)).grid 1 1 = Cell.Path :=
  (C10_only_path_writes (CylinderMaze.new 1 2) (0, 0) (0, 1) ∅ none [] wseqA 9
    (CylinderMaze.new 1 2, ∅, 0) (CylinderMaze.new 1 2, ∅, 0) (0, 0) 1 1).1

end MazeMaker
